import Mathlib

/-!
The rules engine of go-chess (`main.go`).

A shallow embedding of the chess engine in `src/main.go` and the properties
of its specification, stated over that embedding.

Modelling conventions.

* A Go `int` coordinate is an `Int`.  The properties below concern
  coordinates in `[0,7]`, where no 64-bit overflow can occur.
* `Board` is the Go array type `[8][8]*Piece`.  A `nil` cell is `none`.
  Pieces are never mutated through their pointer, so a pointer is modelled by
  the value it points to.
* Go arrays are values: the statement `board := gs.Board` in `validPawnMove`
  and `validKingMove` copies all 64 cells into a local variable, and the later
  stores `board[..][..] = ..` change that local only.  Both functions are
  modelled as returning their result together with the final value of the
  local `board`; `gs` itself is never stored to by them.
* A run-time panic (index out of range, nil dereference) is the result `none`.
  Methods with a pointer receiver return the state they leave behind.
* A Go `string` is the list of its bytes; `strings.Split` is modelled from its
  documentation and the byte subtraction of `ParseMove` wraps modulo 256.
* Definitions whose comment starts with `Specification side` are not taken
  from the source: they spell out the words of the specification that the
  rules of the source are compared with.
-/

namespace GoChess

/-! ## Data model -/

/-- Piece of the Go source, `Piece{Type, Color}`; the field `Type` is called
`Kind` here because `Type` is reserved. -/
structure Piece where
  Kind : String
  Color : String
deriving DecidableEq, Repr

/-- Board of the Go source, `[8][8]*Piece`, indexed `[row][column]`. -/
abbrev Board := Fin 8 → Fin 8 → Option Piece

/-- GameState of the Go source. -/
structure GameState where
  Board : Board
  WhiteCanCastleKingSide : Bool
  WhiteCanCastleQueenSide : Bool
  BlackCanCastleKingSide : Bool
  BlackCanCastleQueenSide : Bool
  EnPassantTarget : Int × Int

/-- Array index of an in-range Go `int`. -/
def idx (i : Int) : Fin 8 := ⟨i.toNat % 8, Nat.mod_lt _ (by decide)⟩

/-- Bounds test that Go performs at every index expression. -/
def inRange (i : Int) : Prop := 0 ≤ i ∧ i < 8

instance (i : Int) : Decidable (inRange i) := by unfold inRange; infer_instance

/-- Read `board[x][y]`; `none` is the index-out-of-range panic. -/
def Board.get (board : Board) (x y : Int) : Option (Option Piece) :=
  if inRange x ∧ inRange y then some (board (idx x) (idx y)) else none

/-- Store `board[x][y] = v`; `none` is the index-out-of-range panic. -/
def Board.set (board : Board) (x y : Int) (v : Option Piece) : Option Board :=
  if inRange x ∧ inRange y then
    some (fun i j => if i = idx x ∧ j = idx y then v else board i j)
  else none

/-- Test `board[x][y] == nil`. -/
def isNil (board : Board) (x y : Int) : Option Bool :=
  (Board.get board x y).map Option.isNone

/-- Dereference of a `*Piece`; `none` is the nil-dereference panic. -/
def deref (p : Option Piece) : Option Piece := p

/-- Test `board[x][y].Color != color`. -/
def colorDiffers (board : Board) (x y : Int) (color : String) : Option Bool :=
  ((Board.get board x y).bind deref).map fun p => p.Color != color

/-- Go's short-circuit `a && b`: `b` is evaluated only when `a` is true. -/
def andM (a b : Option Bool) : Option Bool :=
  a.bind fun v => if v then b else some false

/-- Go's short-circuit `a || b`: `b` is evaluated only when `a` is false. -/
def orM (a b : Option Bool) : Option Bool :=
  a.bind fun v => if v then some true else b

/-! ## Helper functions (lines 280-300) -/

/-- Helper `abs` of the Go source. -/
def abs (x : Int) : Int := if x < 0 then -x else x

/-- Helper `min` of the Go source. -/
def min (a b : Int) : Int := if a < b then a else b

/-- Helper `max` of the Go source. -/
def max (a b : Int) : Int := if a > b then a else b

/-! ## Initialisation (lines 28-60) -/

/-- Zero value of `GameState`, as declared by `var gameState GameState`. -/
def zeroGameState : GameState :=
  { Board := fun _ _ => none
    WhiteCanCastleKingSide := false
    WhiteCanCastleQueenSide := false
    BlackCanCastleKingSide := false
    BlackCanCastleQueenSide := false
    EnPassantTarget := (0, 0) }

/-- Store `board[i][j] = v` with indices that are constants or loop indices
of a loop over `0..7`; such a store cannot panic. -/
def Board.put (board : Board) (i j : Fin 8) (v : Option Piece) : Board :=
  fun a b => if a = i ∧ b = j then v else board a b

/-- Loop `for i := 0; i < 8; i++ { gs.Board[row][i] = &Piece{Type: "P", Color: color} }`. -/
def pawnRow (board : Board) (row : Fin 8) (color : String) : Board :=
  ([0, 1, 2, 3, 4, 5, 6, 7] : List (Fin 8)).foldl
    (fun b i => Board.put b row i (some ⟨"P", color⟩)) board

/-- Method `Initialize`: the 32 stores of lines 30-53 in the order of the
source, then the five stores of lines 55-59. -/
def Initialize (gs : GameState) : GameState :=
  let b := Board.put gs.Board 0 0 (some ⟨"R", "W"⟩)
  let b := Board.put b 0 1 (some ⟨"N", "W"⟩)
  let b := Board.put b 0 2 (some ⟨"B", "W"⟩)
  let b := Board.put b 0 3 (some ⟨"Q", "W"⟩)
  let b := Board.put b 0 4 (some ⟨"K", "W"⟩)
  let b := Board.put b 0 5 (some ⟨"B", "W"⟩)
  let b := Board.put b 0 6 (some ⟨"N", "W"⟩)
  let b := Board.put b 0 7 (some ⟨"R", "W"⟩)
  let b := pawnRow b 1 "W"
  let b := Board.put b 7 0 (some ⟨"R", "B"⟩)
  let b := Board.put b 7 1 (some ⟨"N", "B"⟩)
  let b := Board.put b 7 2 (some ⟨"B", "B"⟩)
  let b := Board.put b 7 3 (some ⟨"Q", "B"⟩)
  let b := Board.put b 7 4 (some ⟨"K", "B"⟩)
  let b := Board.put b 7 5 (some ⟨"B", "B"⟩)
  let b := Board.put b 7 6 (some ⟨"N", "B"⟩)
  let b := Board.put b 7 7 (some ⟨"R", "B"⟩)
  let b := pawnRow b 6 "B"
  { Board := b
    WhiteCanCastleKingSide := true
    WhiteCanCastleQueenSide := true
    BlackCanCastleKingSide := true
    BlackCanCastleQueenSide := true
    EnPassantTarget := (-1, -1) }

/-- The canonical starting position, cell by cell, in the words of the
specification: Rook, Knight, Bishop, Queen, King, Bishop, Knight, Rook on rows
0 (White) and 7 (Black), Pawns on rows 1 (White) and 6 (Black), nothing on
rows 2 to 5. -/
def initCell (i j : Fin 8) : Option Piece :=
  let back : Fin 8 → String := fun j =>
    if j = 0 ∨ j = 7 then "R" else if j = 1 ∨ j = 6 then "N"
    else if j = 2 ∨ j = 5 then "B" else if j = 3 then "Q" else "K"
  if i = 0 then some ⟨back j, "W"⟩
  else if i = 1 then some ⟨"P", "W"⟩
  else if i = 6 then some ⟨"P", "B"⟩
  else if i = 7 then some ⟨back j, "B"⟩
  else none

/-- The canonical starting state of the specification: the starting position,
all four castling flags true, no en-passant target. -/
def startingState : GameState :=
  { Board := initCell
    WhiteCanCastleKingSide := true
    WhiteCanCastleQueenSide := true
    BlackCanCastleKingSide := true
    BlackCanCastleQueenSide := true
    EnPassantTarget := (-1, -1) }

/-! ## Per-piece rules (lines 155-278) -/

/-- Function `validPawnMove`.  The second component of the result is the local
variable `board` at the return statement. -/
def validPawnMove (gs : GameState) (fromX fromY toX toY : Int) (color : String) :
    Option (Bool × Board) :=
  let board := gs.Board
  if color = "W" then
    (andM (some (fromX == 1 && toX == fromX + 2 && fromY == toY))
      (andM (isNil board toX toY) (isNil board (toX - 1) toY))).bind fun c1 =>
    if c1 then some (true, board) else
    (andM (some (toX == fromX + 1 && fromY == toY)) (isNil board toX toY)).bind fun c2 =>
    if c2 then some (true, board) else
    (andM (some (toX == fromX + 1 && (toY == fromY + 1 || toY == fromY - 1)))
      (andM ((isNil board toX toY).map not) (colorDiffers board toX toY color))).bind fun c3 =>
    if c3 then some (true, board) else
    if toX == fromX + 1 && toY == fromY + 1 && gs.EnPassantTarget.1 == toX
        && gs.EnPassantTarget.2 == toY then
      (Board.set board (toX - 1) toY none).bind fun board => some (true, board)
    else some (false, board)
  else
    (andM (some (fromX == 6 && toX == fromX - 2 && fromY == toY))
      (andM (isNil board toX toY) (isNil board (toX + 1) toY))).bind fun c1 =>
    if c1 then some (true, board) else
    (andM (some (toX == fromX - 1 && fromY == toY)) (isNil board toX toY)).bind fun c2 =>
    if c2 then some (true, board) else
    (andM (some (toX == fromX - 1 && (toY == fromY + 1 || toY == fromY - 1)))
      (andM ((isNil board toX toY).map not) (colorDiffers board toX toY color))).bind fun c3 =>
    if c3 then some (true, board) else
    if toX == fromX - 1 && toY == fromY - 1 && gs.EnPassantTarget.1 == toX
        && gs.EnPassantTarget.2 == toY then
      (Board.set board (toX + 1) toY none).bind fun board => some (true, board)
    else some (false, board)

/-- Loop `for i := lo; i < hi; i++ { if cell(i) != nil { return false } }`
followed by `return true`, with `n` the number of iterations left. -/
def scanClear (cell : Int → Option (Option Piece)) : Nat → Int → Option Bool
  | 0, _ => some true
  | n + 1, i =>
    (cell i).bind fun c => if c.isSome then some false else scanClear cell n (i + 1)

/-- Function `validRookMove`. -/
def validRookMove (board : Board) (fromX fromY toX toY : Int) : Option Bool :=
  if fromX ≠ toX ∧ fromY ≠ toY then some false
  else if fromX = toX then
    scanClear (fun y => Board.get board fromX y)
      (max fromY toY - (min fromY toY + 1)).toNat (min fromY toY + 1)
  else
    scanClear (fun x => Board.get board x fromY)
      (max fromX toX - (min fromX toX + 1)).toNat (min fromX toX + 1)

/-- Function `validKnightMove`. -/
def validKnightMove (fromX fromY toX toY : Int) : Bool :=
  (abs (fromX - toX) == 2 && abs (fromY - toY) == 1)
    || (abs (fromX - toX) == 1 && abs (fromY - toY) == 2)

/-- Loop `for x != toX && y != toY { .. }` of `validBishopMove`, followed by
`return true`.  Every iteration reads `board[x][y]` and moves `x` by one, so
at most eight iterations can pass without a panic; the first argument bounds
the number of iterations and `bishopLoop_fuel` shows that nine are enough. -/
def bishopLoop (board : Board) (xStep yStep toX toY : Int) : Nat → Int → Int → Option Bool
  | 0, _, _ => none
  | n + 1, x, y =>
    if x ≠ toX ∧ y ≠ toY then
      (Board.get board x y).bind fun c =>
        if c.isSome then some false
        else bishopLoop board xStep yStep toX toY n (x + xStep) (y + yStep)
    else some true

/-- Function `validBishopMove`. -/
def validBishopMove (board : Board) (fromX fromY toX toY : Int) : Option Bool :=
  if abs (fromX - toX) ≠ abs (fromY - toY) then some false
  else
    let xStep : Int := if fromX > toX then -1 else 1
    let yStep : Int := if fromY > toY then -1 else 1
    bishopLoop board xStep yStep toX toY 9 (fromX + xStep) (fromY + yStep)

/-- Function `validQueenMove`. -/
def validQueenMove (board : Board) (fromX fromY toX toY : Int) : Option Bool :=
  orM (validRookMove board fromX fromY toX toY) (validBishopMove board fromX fromY toX toY)

/-- One castling branch of `validKingMove`: the two stores that move the rook
from column `rookY` to column `newY` in the local `board`. -/
def castleLocal (board : Board) (fromX newY rookY : Int) : Option (Bool × Board) :=
  (Board.get board fromX rookY).bind fun rook =>
  (Board.set board fromX newY rook).bind fun board =>
  (Board.set board fromX rookY none).bind fun board => some (true, board)

/-- Lines 254-263 of `validKingMove`: the two castling tests made when the
piece on the source square is White, on the local `board`. -/
def castleWhite (gs : GameState) (board : Board) (fromX fromY toY : Int) :
    Option (Bool × Board) :=
  (andM (some (decide (fromY < toY) && gs.WhiteCanCastleKingSide))
    (andM (isNil board fromX (fromY + 1)) (isNil board fromX (fromY + 2)))).bind fun c1 =>
  if c1 then castleLocal board fromX (fromY + 1) 7 else
  (andM (some (decide (fromY > toY) && gs.WhiteCanCastleQueenSide))
    (andM (isNil board fromX (fromY - 1))
      (andM (isNil board fromX (fromY - 2)) (isNil board fromX (fromY - 3))))).bind fun c2 =>
  if c2 then castleLocal board fromX (fromY - 1) 0 else some (false, board)

/-- Lines 265-274 of `validKingMove`: the two castling tests made when the
piece on the source square is not White, on the local `board`. -/
def castleBlack (gs : GameState) (board : Board) (fromX fromY toY : Int) :
    Option (Bool × Board) :=
  (andM (some (decide (fromY < toY) && gs.BlackCanCastleKingSide))
    (andM (isNil board fromX (fromY + 1)) (isNil board fromX (fromY + 2)))).bind fun c1 =>
  if c1 then castleLocal board fromX (fromY + 1) 7 else
  (andM (some (decide (fromY > toY) && gs.BlackCanCastleQueenSide))
    (andM (isNil board fromX (fromY - 1))
      (andM (isNil board fromX (fromY - 2)) (isNil board fromX (fromY - 3))))).bind fun c2 =>
  if c2 then castleLocal board fromX (fromY - 1) 0 else some (false, board)

/-- Function `validKingMove`.  The second component of the result is the local
variable `board` at the return statement. -/
def validKingMove (gs : GameState) (fromX fromY toX toY : Int) : Option (Bool × Board) :=
  let board := gs.Board
  if abs (fromX - toX) ≤ 1 ∧ abs (fromY - toY) ≤ 1 then some (true, board)
  else if fromX = toX ∧ abs (fromY - toY) = 2 then
    ((Board.get board fromX fromY).bind deref).bind fun king =>
    if king.Color = "W" then castleWhite gs board fromX fromY toY
    else castleBlack gs board fromX fromY toY
  else some (false, board)

/-! ## IsValidMove (lines 329-352) -/

/-- Method `IsValidMove`: the answer and the state `*gs` at return. -/
def IsValidMove (gs : GameState) (fromX fromY toX toY : Int) : Option (Bool × GameState) :=
  (Board.get gs.Board fromX fromY).bind fun cell =>
  match cell with
  | none => some (false, gs)
  | some piece =>
    if piece.Kind = "P" then
      (validPawnMove gs fromX fromY toX toY piece.Color).map fun r => (r.1, gs)
    else if piece.Kind = "R" then
      (validRookMove gs.Board fromX fromY toX toY).map fun r => (r, gs)
    else if piece.Kind = "N" then some (validKnightMove fromX fromY toX toY, gs)
    else if piece.Kind = "B" then
      (validBishopMove gs.Board fromX fromY toX toY).map fun r => (r, gs)
    else if piece.Kind = "Q" then
      (validQueenMove gs.Board fromX fromY toX toY).map fun r => (r, gs)
    else if piece.Kind = "K" then
      (validKingMove gs fromX fromY toX toY).map fun r => (r.1, gs)
    else some (false, gs)

/-! ## MovePiece (lines 76-153) -/

/-- Lines 88-113 of `MovePiece`, the `switch piece.Type`: `false` when the
selected rule rejects the move, `true` when it accepts it or when no case of
the switch matches. -/
def MovePiece.rule (gs : GameState) (piece : Piece) (fromX fromY toX toY : Int) :
    Option Bool :=
  if piece.Kind = "P" then
    (validPawnMove gs fromX fromY toX toY piece.Color).map Prod.fst
  else if piece.Kind = "R" then validRookMove gs.Board fromX fromY toX toY
  else if piece.Kind = "N" then some (validKnightMove fromX fromY toX toY)
  else if piece.Kind = "B" then validBishopMove gs.Board fromX fromY toX toY
  else if piece.Kind = "Q" then validQueenMove gs.Board fromX fromY toX toY
  else if piece.Kind = "K" then (validKingMove gs fromX fromY toX toY).map Prod.fst
  else some true

/-- Lines 115-150 of `MovePiece`: the stores made once the move is accepted,
in the order of the source. -/
def MovePiece.commit (gs : GameState) (piece : Piece) (fromX fromY toX toY : Int) :
    Option GameState :=
  (Board.set gs.Board toX toY
    (if piece.Kind == "P" && (toX == 0 || toX == 7) then some ⟨"Q", piece.Color⟩
     else some piece)).bind fun b1 =>
  (Board.set b1 fromX fromY none).bind fun b2 =>
  let gs1 : GameState := { gs with Board := b2 }
  let gs2 : GameState :=
    if piece.Kind == "K" then
      if piece.Color == "W" then
        { gs1 with WhiteCanCastleKingSide := false, WhiteCanCastleQueenSide := false }
      else { gs1 with BlackCanCastleKingSide := false, BlackCanCastleQueenSide := false }
    else gs1
  let gs3 : GameState :=
    if piece.Kind == "R" then
      if fromX == 0 && fromY == 0 then { gs2 with WhiteCanCastleQueenSide := false }
      else if fromX == 0 && fromY == 7 then { gs2 with WhiteCanCastleKingSide := false }
      else if fromX == 7 && fromY == 0 then { gs2 with BlackCanCastleQueenSide := false }
      else if fromX == 7 && fromY == 7 then { gs2 with BlackCanCastleKingSide := false }
      else gs2
    else gs2
  some
    { gs3 with
      EnPassantTarget :=
        if piece.Kind == "P" && abs (fromX - toX) == 2 then ((fromX + toX).tdiv 2, fromY)
        else (-1, -1) }

/-- Method `MovePiece`: the returned flag and the state `*gs` at return. -/
def MovePiece (gs : GameState) (fromX fromY toX toY : Int) : Option (Bool × GameState) :=
  (Board.get gs.Board fromX fromY).bind fun cell =>
  match cell with
  | none => some (false, gs)
  | some piece =>
    (Board.get gs.Board toX toY).bind fun target =>
    if (match target with
        | some t => t.Color == piece.Color
        | none => false) then some (false, gs)
    else
      (MovePiece.rule gs piece fromX fromY toX toY).bind fun ok =>
      if !ok then some (false, gs)
      else (MovePiece.commit gs piece fromX fromY toX toY).map fun gs1 => (true, gs1)

/-! ## Check and checkmate (lines 302-384) -/

/-- The eight values taken by a loop `for i := 0; i < 8; i++`. -/
def range8 : List Int := [0, 1, 2, 3, 4, 5, 6, 7]

/-- The 64 pairs visited by two nested loops over `0..7`, outer index first. -/
def allSquares : List (Int × Int) :=
  range8.flatMap fun x => range8.map fun y => (x, y)

/-- Test of line 308: the cell holds a King of `color`. -/
def isKingOf (color : String) (cell : Option Piece) : Bool :=
  match cell with
  | some p => p.Kind == "K" && p.Color == color
  | none => false

/-- Inner loop of the king search for row `x`; its `break` leaves this loop
only, so the first matching column of the row is the one assigned. -/
def findKingInRow (board : Board) (color : String) (x : Int) : Option Int :=
  range8.find? fun y => isKingOf color (board (idx x) (idx y))

/-- King search of `IsInCheck` (lines 304-313): `kingX, kingY` start at zero and
are overwritten by every row that holds a King of `color`. -/
def findKing (board : Board) (color : String) : Int × Int :=
  range8.foldl
    (fun acc x =>
      match findKingInRow board color x with
      | some y => (x, y)
      | none => acc)
    (0, 0)

/-- Attacker scan of `IsInCheck` (lines 316-324) over the squares still to
visit; `true` is the early `return true`. -/
def attackScan (color : String) (kingX kingY : Int) :
    List (Int × Int) → GameState → Option (Bool × GameState)
  | [], gs => some (false, gs)
  | (x, y) :: rest, gs =>
    (andM ((isNil gs.Board x y).map not) (colorDiffers gs.Board x y color)).bind fun c =>
    if c then
      (IsValidMove gs x y kingX kingY).bind fun r =>
      if r.1 then some (true, r.2) else attackScan color kingX kingY rest r.2
    else attackScan color kingX kingY rest gs

/-- Method `IsInCheck`: the answer and the state `*gs` at return. -/
def IsInCheck (gs : GameState) (color : String) : Option (Bool × GameState) :=
  let king := findKing gs.Board color
  attackScan color king.1 king.2 allSquares gs

/-- Test `board[x][y] != nil && board[x][y].Color == color` of line 364. -/
def ownPiece (board : Board) (x y : Int) (color : String) : Option Bool :=
  andM ((isNil board x y).map not) ((colorDiffers board x y color).map not)

/-- The two inner loops of `IsCheckmate` (lines 365-377) for the source square
`(x, y)` over the targets still to try.  The flag `true` is the early
`return false` of line 372. -/
def tryTargets (color : String) (x y : Int) :
    List (Int × Int) → GameState → Option (Bool × GameState)
  | [], gs => some (false, gs)
  | (toX, toY) :: rest, gs =>
    (Board.get gs.Board toX toY).bind fun originalPiece =>
    (MovePiece gs x y toX toY).bind fun m =>
    if m.1 then
      (IsInCheck m.2 color).bind fun c =>
      (Board.set c.2.Board toX toY originalPiece).bind fun b1 =>
      (Board.get b1 toX toY).bind fun v =>
      (Board.set b1 x y v).bind fun b2 =>
      if !c.1 then some (true, { c.2 with Board := b2 })
      else tryTargets color x y rest { c.2 with Board := b2 }
    else tryTargets color x y rest m.2

/-- The two outer loops of `IsCheckmate` (lines 362-381) over the source
squares still to visit.  The flag `true` is the early `return false`. -/
def trySources (color : String) :
    List (Int × Int) → GameState → Option (Bool × GameState)
  | [], gs => some (false, gs)
  | (x, y) :: rest, gs =>
    (ownPiece gs.Board x y color).bind fun own =>
    if own then
      (tryTargets color x y allSquares gs).bind fun r =>
      if r.1 then some (true, r.2) else trySources color rest r.2
    else trySources color rest gs

/-- Method `IsCheckmate`: the answer and the state `*gs` at return. -/
def IsCheckmate (gs : GameState) (color : String) : Option (Bool × GameState) :=
  (IsInCheck gs color).bind fun c =>
  if !c.1 then some (false, c.2)
  else (trySources color allSquares c.2).map fun r => (!r.1, r.2)

/-! ## ParseMove (lines 386-401) -/

/-- Library function `strings.Split(s, ",")` on the bytes of a Go string: the
substrings between the commas (byte 44); a string without a comma, the empty
one included, gives one substring. -/
def splitComma : List Nat → List (List Nat)
  | [] => [[]]
  | b :: rest =>
    if b = 44 then [] :: splitComma rest
    else
      match splitComma rest with
      | [] => [[b]]
      | part :: parts => (b :: part) :: parts

/-- Subtraction `a - b` of two Go bytes (`uint8`), which wraps around. -/
def byteSub (a b : Nat) : Nat := (a + 256 - b) % 256

/-- Function `ParseMove` on the bytes of its argument; `'1'` is byte 49 and
`'a'` is byte 97. -/
def ParseMove (move : List Nat) : Int × Int × Int × Int × Bool :=
  match splitComma move with
  | [[f1, r1], [f2, r2]] =>
    let fromX : Int := byteSub r1 49
    let fromY : Int := byteSub f1 97
    let toX : Int := byteSub r2 49
    let toY : Int := byteSub f2 97
    if fromX < 0 ∨ fromX > 7 ∨ fromY < 0 ∨ fromY > 7 ∨ toX < 0 ∨ toX > 7 ∨ toY < 0 ∨ toY > 7
    then (0, 0, 0, 0, false)
    else (fromX, fromY, toX, toY, true)
  | _ => (0, 0, 0, 0, false)

/-- Bytes of a string of ASCII characters. -/
def bytesOf (s : String) : List Nat := s.toList.map Char.toNat

/-- A move in the input format of the specification: file letter and rank
digit of the source square, a comma, file letter and rank digit of the target
square. -/
def renderMove (fromX fromY toX toY : Nat) : List Nat :=
  [97 + fromY, 49 + fromX, 44, 97 + toY, 49 + toX]

/-! ## The loop of main (lines 403-444) -/

/-- Function `oppositeColor`. -/
def oppositeColor (color : String) : String := if color = "W" then "B" else "W"

/-- The loop of `main` (lines 408-436) on the lines still to be read from the
input; printing is left out.  Every pass calls `IsCheckmate` and `IsInCheck`
for the player to move before it reads a line.  The flag is true when the loop
ended with the checkmate message; with no line left, the result is the state
in which the loop waits for input. -/
def mainLoop : List (List Nat) → GameState → String → Option (Bool × GameState)
  | [], gs, currentPlayer =>
    (IsCheckmate gs currentPlayer).bind fun mate =>
    if mate.1 then some (true, mate.2)
    else (IsInCheck mate.2 currentPlayer).map fun chk => (false, chk.2)
  | move :: rest, gs, currentPlayer =>
    (IsCheckmate gs currentPlayer).bind fun mate =>
    if mate.1 then some (true, mate.2)
    else
      (IsInCheck mate.2 currentPlayer).bind fun chk =>
      match ParseMove move with
      | (fromX, fromY, toX, toY, valid) =>
        if !valid then mainLoop rest chk.2 currentPlayer
        else
          (MovePiece chk.2 fromX fromY toX toY).bind fun moved =>
          if !moved.1 then mainLoop rest moved.2 currentPlayer
          else mainLoop rest moved.2 (oppositeColor currentPlayer)

/-! ## Lines of the board, in the words of the specification -/

/-- Specification side: square `(x, y)` lies strictly between `(fromX, fromY)`
and `(toX, toY)` on the row or on the column that the two squares share. -/
def betweenStraight (fromX fromY toX toY x y : Int) : Prop :=
  (fromX = toX ∧ x = fromX ∧ ((fromY < y ∧ y < toY) ∨ (toY < y ∧ y < fromY))) ∨
  (fromY = toY ∧ y = fromY ∧ ((fromX < x ∧ x < toX) ∨ (toX < x ∧ x < fromX)))

/-- Specification side: square `(x, y)` lies strictly between `(fromX, fromY)`
and `(toX, toY)`, in row and in column, at equal row and column distance from
`(fromX, fromY)`; for two squares on a common diagonal these are the squares
strictly between them on that diagonal. -/
def betweenDiagonal (fromX fromY toX toY x y : Int) : Prop :=
  ((fromX < x ∧ x < toX) ∨ (toX < x ∧ x < fromX)) ∧
  ((fromY < y ∧ y < toY) ∨ (toY < y ∧ y < fromY)) ∧
  (x - fromX = y - fromY ∨ x - fromX = fromY - y)

/-- Specification side: the two squares are on a common diagonal. -/
def onDiagonal (fromX fromY toX toY : Int) : Prop :=
  fromX - toX = fromY - toY ∨ fromX - toX = toY - fromY

/-! ## Reachable states and concrete positions -/

/-- States reached by calls of `MovePiece` alone: the initialised zero value,
closed under calls of `MovePiece` with coordinates in `[0,7]`, accepted or
rejected.  The calls of `IsCheckmate` made by `main` are not part of it. -/
inductive Reachable : GameState → Prop
  | init : Reachable (Initialize zeroGameState)
  | move {gs gs1 : GameState} {fromX fromY toX toY : Int} {ok : Bool} :
      Reachable gs → inRange fromX → inRange fromY → inRange toX → inRange toY →
      MovePiece gs fromX fromY toX toY = some (ok, gs1) → Reachable gs1

/-- No Pawn stands on row 0 or on row 7. -/
def NoEdgePawn (board : Board) : Prop :=
  ∀ i j p, board i j = some p → (i = 0 ∨ i = 7) → p.Kind ≠ "P"

/-- What a completed call shows: its flag, the listed cells of the state it
leaves, the four castling flags of that state and its en-passant target. -/
def observe (r : Option (Bool × GameState)) (cells : List (Fin 8 × Fin 8)) :
    Option (Bool × List (Option Piece) × List Bool × (Int × Int)) :=
  r.map fun r =>
    (r.1, cells.map (fun s => r.2.Board s.1 s.2),
      [r.2.WhiteCanCastleKingSide, r.2.WhiteCanCastleQueenSide,
        r.2.BlackCanCastleKingSide, r.2.BlackCanCastleQueenSide],
      r.2.EnPassantTarget)

/-- The starting position with f1 and g1 emptied. -/
def castleState : GameState :=
  let s := Initialize zeroGameState
  { s with Board := fun i j => if i = 0 ∧ (j = 5 ∨ j = 6) then none else s.Board i j }

/-- Kings on e1 and e8, a White pawn on e2, Black pawns on d4 and f4. -/
def enPassantState : GameState :=
  { Board := fun i j =>
      if i = 1 ∧ j = 4 then some ⟨"P", "W"⟩
      else if i = 3 ∧ j = 3 then some ⟨"P", "B"⟩
      else if i = 3 ∧ j = 5 then some ⟨"P", "B"⟩
      else if i = 0 ∧ j = 4 then some ⟨"K", "W"⟩
      else if i = 7 ∧ j = 4 then some ⟨"K", "B"⟩
      else none
    WhiteCanCastleKingSide := false
    WhiteCanCastleQueenSide := false
    BlackCanCastleKingSide := false
    BlackCanCastleQueenSide := false
    EnPassantTarget := (-1, -1) }

/-- Black king on e8, White queen on e7 with nothing behind it, White king on e1. -/
def looseQueenState : GameState :=
  { Board := fun i j =>
      if i = 7 ∧ j = 4 then some ⟨"K", "B"⟩
      else if i = 6 ∧ j = 4 then some ⟨"Q", "W"⟩
      else if i = 0 ∧ j = 4 then some ⟨"K", "W"⟩
      else none
    WhiteCanCastleKingSide := false
    WhiteCanCastleQueenSide := false
    BlackCanCastleKingSide := false
    BlackCanCastleQueenSide := false
    EnPassantTarget := (-1, -1) }

/-- State left by a call that completed; the given state if it did not. -/
def stateAfter (r : Option (Bool × GameState)) (gs : GameState) : GameState :=
  (r.map Prod.snd).getD gs

/-- The state of a game after the single move e2 to e4 from the start. -/
def afterE4State : GameState :=
  stateAfter (MovePiece (Initialize zeroGameState) 1 4 3 4) zeroGameState

/-- Black king on e8, checked by a White rook on e1; White king on a1. -/
def rookCheckState : GameState :=
  { Board := fun i j =>
      if i = 7 ∧ j = 4 then some ⟨"K", "B"⟩
      else if i = 0 ∧ j = 4 then some ⟨"R", "W"⟩
      else if i = 0 ∧ j = 0 then some ⟨"K", "W"⟩
      else none
    WhiteCanCastleKingSide := false
    WhiteCanCastleQueenSide := false
    BlackCanCastleKingSide := false
    BlackCanCastleQueenSide := false
    EnPassantTarget := (-1, -1) }

/-- Black king on e8, checked by a White rook on e1; White king on d7. -/
def kingsAdjacentState : GameState :=
  { Board := fun i j =>
      if i = 7 ∧ j = 4 then some ⟨"K", "B"⟩
      else if i = 0 ∧ j = 4 then some ⟨"R", "W"⟩
      else if i = 6 ∧ j = 3 then some ⟨"K", "W"⟩
      else none
    WhiteCanCastleKingSide := false
    WhiteCanCastleQueenSide := false
    BlackCanCastleKingSide := false
    BlackCanCastleQueenSide := false
    EnPassantTarget := (-1, -1) }

/-- White pawn on e5, Black pawns on d5 and f5, kings on e1 and e8, and the
en-passant target on d6, as after the advance d7 to d5. -/
def whiteEnPassantState : GameState :=
  { Board := fun i j =>
      if i = 4 ∧ j = 4 then some ⟨"P", "W"⟩
      else if i = 4 ∧ j = 3 then some ⟨"P", "B"⟩
      else if i = 4 ∧ j = 5 then some ⟨"P", "B"⟩
      else if i = 0 ∧ j = 4 then some ⟨"K", "W"⟩
      else if i = 7 ∧ j = 4 then some ⟨"K", "B"⟩
      else none
    WhiteCanCastleKingSide := false
    WhiteCanCastleQueenSide := false
    BlackCanCastleKingSide := false
    BlackCanCastleQueenSide := false
    EnPassantTarget := (5, 3) }

/-- Number of Kings of `color` on the board. -/
def countKings (board : Board) (color : String) : Nat :=
  (allSquares.filter fun s => isKingOf color (board (idx s.1) (idx s.2))).length

/-- At most one King of each color stands on the board. -/
def AtMostOneKing (board : Board) : Prop :=
  ∀ (color : String) (i j i1 j1 : Fin 8),
    isKingOf color (board i j) = true → isKingOf color (board i1 j1) = true →
    i = i1 ∧ j = j1

/-- Invariant of reachable states: while a castling flag of a color is still
true, every King of that color stands on its home square, (0,4) for "W" and
(7,4) for the other color. -/
def KingsHome (gs : GameState) : Prop :=
  ∀ (i j : Fin 8) (p : Piece), gs.Board i j = some p → p.Kind = "K" →
    (p.Color = "W" →
      (gs.WhiteCanCastleKingSide = true ∨ gs.WhiteCanCastleQueenSide = true) →
      i = 0 ∧ j = 4) ∧
    (p.Color ≠ "W" →
      (gs.BlackCanCastleKingSide = true ∨ gs.BlackCanCastleQueenSide = true) →
      i = 7 ∧ j = 4)

/-- The state after the advance e2 to e4 on `enPassantState`. -/
def afterE4EnPassant : GameState :=
  stateAfter (MovePiece enPassantState 1 4 3 4) enPassantState

/-- Seven input lines of a game: 1. e4 d5 2. exd5 e6 3. dxe6 a6 4. exf7+. -/
def edgePawnGame : List (List Nat) :=
  ["e2,e4", "d7,d5", "e4,d5", "e7,e6", "d5,e6", "a7,a6", "e6,f7"].map bytesOf

/-! ## Basic facts about the embedding -/

theorem Board.get_inRange (board : Board) {x y : Int} (hx : inRange x) (hy : inRange y) :
    Board.get board x y = some (board (idx x) (idx y)) := by
  simp [Board.get, hx, hy]

theorem Board.set_inRange (board : Board) {x y : Int} (hx : inRange x) (hy : inRange y)
    (v : Option Piece) :
    Board.set board x y v = some (fun i j => if i = idx x ∧ j = idx y then v else board i j) := by
  simp [Board.set, hx, hy]

theorem Board.get_eq_some {board : Board} {x y : Int} {c : Option Piece}
    (h : Board.get board x y = some c) :
    inRange x ∧ inRange y ∧ c = board (idx x) (idx y) := by
  unfold Board.get at h
  split at h
  · rename_i hr
    simp at h
    exact ⟨hr.1, hr.2, h.symm⟩
  · simp at h

theorem idx_eq_iff {x y : Int} (hx : inRange x) (hy : inRange y) : idx x = idx y ↔ x = y := by
  unfold inRange at hx hy
  simp only [idx, Fin.mk.injEq]
  omega

theorem andM_eq_some_true {a b : Option Bool} :
    andM a b = some true ↔ a = some true ∧ b = some true := by
  cases a with
  | none => simp [andM]
  | some v => cases v <;> simp [andM]

/-! ## MovePiece: rejected and accepted calls -/

/-- A rejected move returns the state it was given. -/
theorem MovePiece_false {gs gs1 : GameState} {fromX fromY toX toY : Int}
    (h : MovePiece gs fromX fromY toX toY = some (false, gs1)) : gs1 = gs := by
  unfold MovePiece at h
  cases hc : Board.get gs.Board fromX fromY with
  | none => simp [hc] at h
  | some cell =>
    cases cell with
    | none => simp [hc] at h; exact h.symm
    | some piece =>
      simp only [hc, Option.some_bind] at h
      cases ht : Board.get gs.Board toX toY with
      | none => simp [ht] at h
      | some target =>
        simp only [ht, Option.some_bind] at h
        split at h
        · simp at h; exact h.symm
        · cases hrule : MovePiece.rule gs piece fromX fromY toX toY with
          | none => simp [hrule] at h
          | some ok =>
            cases ok <;> simp [hrule] at h
            exact h.symm

/-- An accepted move: what was read, what was tested and what was stored. -/
theorem MovePiece_true {gs gs1 : GameState} {fromX fromY toX toY : Int}
    (h : MovePiece gs fromX fromY toX toY = some (true, gs1)) :
    ∃ piece, Board.get gs.Board fromX fromY = some (some piece) ∧
      (∀ t, Board.get gs.Board toX toY = some (some t) → t.Color ≠ piece.Color) ∧
      (Board.get gs.Board toX toY).isSome ∧
      MovePiece.rule gs piece fromX fromY toX toY = some true ∧
      MovePiece.commit gs piece fromX fromY toX toY = some gs1 := by
  unfold MovePiece at h
  cases hc : Board.get gs.Board fromX fromY with
  | none => simp [hc] at h
  | some cell =>
    cases cell with
    | none => simp [hc] at h
    | some piece =>
      simp only [hc, Option.some_bind] at h
      cases ht : Board.get gs.Board toX toY with
      | none => simp [ht] at h
      | some target =>
        simp only [ht, Option.some_bind] at h
        split at h
        · simp at h
        · rename_i hcol
          cases hrule : MovePiece.rule gs piece fromX fromY toX toY with
          | none => simp [hrule] at h
          | some ok =>
            cases ok <;> simp [hrule] at h
            refine ⟨piece, rfl, ?_, by simp, hrule, h⟩
            intro t ht2
            simp at ht2
            subst ht2
            simpa using hcol

/-- The state stored by an accepted move, field by field. -/
theorem commit_eq {gs gs1 : GameState} {piece : Piece} {fromX fromY toX toY : Int}
    (hfx : inRange fromX) (hfy : inRange fromY) (htx : inRange toX) (hty : inRange toY)
    (h : MovePiece.commit gs piece fromX fromY toX toY = some gs1) :
    gs1.Board = (fun i j =>
        if i = idx fromX ∧ j = idx fromY then none
        else if i = idx toX ∧ j = idx toY then
          (if piece.Kind = "P" ∧ (toX = 0 ∨ toX = 7) then some ⟨"Q", piece.Color⟩ else some piece)
        else gs.Board i j) ∧
    gs1.WhiteCanCastleKingSide = (gs.WhiteCanCastleKingSide
        && !((piece.Kind == "K" && piece.Color == "W")
            || (piece.Kind == "R" && fromX == 0 && fromY == 7))) ∧
    gs1.WhiteCanCastleQueenSide = (gs.WhiteCanCastleQueenSide
        && !((piece.Kind == "K" && piece.Color == "W")
            || (piece.Kind == "R" && fromX == 0 && fromY == 0))) ∧
    gs1.BlackCanCastleKingSide = (gs.BlackCanCastleKingSide
        && !((piece.Kind == "K" && piece.Color != "W")
            || (piece.Kind == "R" && fromX == 7 && fromY == 7))) ∧
    gs1.BlackCanCastleQueenSide = (gs.BlackCanCastleQueenSide
        && !((piece.Kind == "K" && piece.Color != "W")
            || (piece.Kind == "R" && fromX == 7 && fromY == 0))) ∧
    gs1.EnPassantTarget =
      (if piece.Kind = "P" ∧ abs (fromX - toX) = 2 then ((fromX + toX).tdiv 2, fromY)
       else (-1, -1)) := by
  unfold MovePiece.commit at h
  simp only [Board.set_inRange _ htx hty, Board.set_inRange _ hfx hfy, Option.some_bind,
    Option.some.injEq] at h
  subst h
  refine ⟨?_, ?_, ?_, ?_, ?_, ?_⟩
  · funext i j
    simp only [apply_ite GameState.Board]
    by_cases hp : piece.Kind = "P" <;> by_cases h0 : toX = 0 <;> by_cases h7 : toX = 7 <;>
      simp [hp, h0, h7]
  · simp only [apply_ite GameState.WhiteCanCastleKingSide]
    cases hk : (piece.Kind == "K") <;> cases hr : (piece.Kind == "R") <;>
      cases hw : (piece.Color == "W") <;> cases gs.WhiteCanCastleKingSide <;>
      simp
    all_goals
      by_cases a : fromX = 0 <;> by_cases b : fromY = 0 <;> by_cases c : fromY = 7 <;>
        by_cases d : fromX = 7 <;> simp_all
  · simp only [apply_ite GameState.WhiteCanCastleQueenSide]
    cases hk : (piece.Kind == "K") <;> cases hr : (piece.Kind == "R") <;>
      cases hw : (piece.Color == "W") <;> cases gs.WhiteCanCastleQueenSide <;>
      simp
    all_goals
      by_cases a : fromX = 0 <;> by_cases b : fromY = 0 <;> by_cases c : fromY = 7 <;>
        by_cases d : fromX = 7 <;> simp_all
  · simp only [apply_ite GameState.BlackCanCastleKingSide]
    cases hk : (piece.Kind == "K") <;> cases hr : (piece.Kind == "R") <;>
      cases hw : (piece.Color == "W") <;> cases gs.BlackCanCastleKingSide <;>
      simp
    all_goals
      by_cases a : fromX = 0 <;> by_cases b : fromY = 0 <;> by_cases c : fromY = 7 <;>
        by_cases d : fromX = 7 <;> simp_all
  · simp only [apply_ite GameState.BlackCanCastleQueenSide]
    cases hk : (piece.Kind == "K") <;> cases hr : (piece.Kind == "R") <;>
      cases hw : (piece.Color == "W") <;> cases gs.BlackCanCastleQueenSide <;>
      simp
    all_goals
      by_cases a : fromX = 0 <;> by_cases b : fromY = 0 <;> by_cases c : fromY = 7 <;>
        by_cases d : fromX = 7 <;> simp_all
  · by_cases hp : piece.Kind = "P" <;> by_cases h2 : abs (fromX - toX) = 2 <;> simp [hp, h2]
theorem inRange_nonneg_sum {a b : Int} (ha : inRange a) (hb : inRange b) : 0 ≤ a + b := by
  unfold inRange at ha hb
  omega

/-- An accepted move with in-range coordinates: the piece that moved and the
state that results, field by field. -/
theorem MovePiece_true_fields {gs gs1 : GameState} {fromX fromY toX toY : Int}
    (hfx : inRange fromX) (hfy : inRange fromY) (htx : inRange toX) (hty : inRange toY)
    (h : MovePiece gs fromX fromY toX toY = some (true, gs1)) :
    ∃ piece, gs.Board (idx fromX) (idx fromY) = some piece ∧
      (∀ t, gs.Board (idx toX) (idx toY) = some t → t.Color ≠ piece.Color) ∧
      MovePiece.rule gs piece fromX fromY toX toY = some true ∧
      MovePiece.commit gs piece fromX fromY toX toY = some gs1 := by
  obtain ⟨piece, hp, hcol, -, hrule, hcommit⟩ := MovePiece_true h
  rw [Board.get_inRange _ hfx hfy] at hp
  refine ⟨piece, by simpa using hp, ?_, hrule, hcommit⟩
  intro t ht
  apply hcol t
  rw [Board.get_inRange _ htx hty, ht]

/-- C2: a call of MovePiece that returns false leaves the whole state as it
was: the returned state, with its 64 cells, its four castling flags and its
en-passant target, equals the state the call was given.  This covers every
rejection, also the ones decided inside validPawnMove and validKingMove. -/
theorem MovePiece_rejected_state_unchanged (gs gs1 : GameState) (fromX fromY toX toY : Int)
    (h : MovePiece gs fromX fromY toX toY = some (false, gs1)) : gs1 = gs :=
  MovePiece_false h

theorem MovePiece_rejected_state_unchanged_witness :
    MovePiece looseQueenState 7 4 7 6 = some (false, looseQueenState) ∧
      looseQueenState = looseQueenState := by
  have h : MovePiece looseQueenState 7 4 7 6 = some (false, looseQueenState) := by rfl
  exact ⟨h, MovePiece_rejected_state_unchanged looseQueenState looseQueenState 7 4 7 6 h⟩

/-- C6: after an accepted move of piece p from (fromX, fromY) every castling
flag is its old value and-not revoked, where the two White flags are revoked
when p is a King of color W, the two Black flags when p is a King of any
other color, and one flag when p is a Rook leaving a1, h1, a8 or h8; and no
call, accepted or rejected, turns a castling flag from false to true. -/
theorem MovePiece_castling_flags (gs gs1 : GameState) (ok : Bool) (fromX fromY toX toY : Int)
    (hfx : inRange fromX) (hfy : inRange fromY) (htx : inRange toX) (hty : inRange toY)
    (h : MovePiece gs fromX fromY toX toY = some (ok, gs1)) :
    (ok = true → ∃ p, gs.Board (idx fromX) (idx fromY) = some p ∧
      gs1.WhiteCanCastleKingSide = (gs.WhiteCanCastleKingSide
        && !((p.Kind == "K" && p.Color == "W") || (p.Kind == "R" && fromX == 0 && fromY == 7))) ∧
      gs1.WhiteCanCastleQueenSide = (gs.WhiteCanCastleQueenSide
        && !((p.Kind == "K" && p.Color == "W") || (p.Kind == "R" && fromX == 0 && fromY == 0))) ∧
      gs1.BlackCanCastleKingSide = (gs.BlackCanCastleKingSide
        && !((p.Kind == "K" && p.Color != "W") || (p.Kind == "R" && fromX == 7 && fromY == 7))) ∧
      gs1.BlackCanCastleQueenSide = (gs.BlackCanCastleQueenSide
        && !((p.Kind == "K" && p.Color != "W") || (p.Kind == "R" && fromX == 7 && fromY == 0)))) ∧
    (gs1.WhiteCanCastleKingSide = true → gs.WhiteCanCastleKingSide = true) ∧
    (gs1.WhiteCanCastleQueenSide = true → gs.WhiteCanCastleQueenSide = true) ∧
    (gs1.BlackCanCastleKingSide = true → gs.BlackCanCastleKingSide = true) ∧
    (gs1.BlackCanCastleQueenSide = true → gs.BlackCanCastleQueenSide = true) := by
  cases ok with
  | false =>
    have := MovePiece_false h
    subst this
    simp
  | true =>
    obtain ⟨piece, hp, -, -, hcommit⟩ := MovePiece_true_fields hfx hfy htx hty h
    obtain ⟨-, h1, h2, h3, h4, -⟩ := commit_eq hfx hfy htx hty hcommit
    refine ⟨fun _ => ⟨piece, hp, h1, h2, h3, h4⟩, ?_, ?_, ?_, ?_⟩
    · rw [h1]; intro hh; simp only [Bool.and_eq_true] at hh; exact hh.1
    · rw [h2]; intro hh; simp only [Bool.and_eq_true] at hh; exact hh.1
    · rw [h3]; intro hh; simp only [Bool.and_eq_true] at hh; exact hh.1
    · rw [h4]; intro hh; simp only [Bool.and_eq_true] at hh; exact hh.1

/-- C7: after an accepted move the en-passant target is the passed-over
square ((fromX + toX) / 2, fromY) when the moved piece is a Pawn whose row
changed by two, and the sentinel (-1, -1) in every other case; so whatever
target the state held before the call is gone unless this very move is a
two-square pawn advance. -/
theorem MovePiece_enPassantTarget (gs gs1 : GameState) (fromX fromY toX toY : Int)
    (hfx : inRange fromX) (hfy : inRange fromY) (htx : inRange toX) (hty : inRange toY)
    (h : MovePiece gs fromX fromY toX toY = some (true, gs1)) :
    ∃ p, gs.Board (idx fromX) (idx fromY) = some p ∧
      gs1.EnPassantTarget =
        (if p.Kind = "P" ∧ abs (fromX - toX) = 2 then ((fromX + toX) / 2, fromY)
         else (-1, -1)) := by
  obtain ⟨piece, hp, -, -, hcommit⟩ := MovePiece_true_fields hfx hfy htx hty h
  obtain ⟨-, -, -, -, -, h5⟩ := commit_eq hfx hfy htx hty hcommit
  refine ⟨piece, hp, ?_⟩
  rw [h5, Int.tdiv_eq_ediv (inRange_nonneg_sum hfx htx) (by decide)]

theorem bind_ite_cases {α : Type} {X : Option Bool} {A B : Option α} {r : α}
    (h : (X.bind fun c => if c then A else B) = some r) :
    (X = some true ∧ A = some r) ∨ (X = some false ∧ B = some r) := by
  cases X with
  | none => simp at h
  | some v => cases v <;> simp_all

/-- An accepted pawn move goes one or two rows forward: up for W, down otherwise. -/
theorem validPawnMove_true_rows {gs : GameState} {fromX fromY toX toY : Int} {color : String}
    {b : Board} (h : validPawnMove gs fromX fromY toX toY color = some (true, b)) :
    (color = "W" ∧ (toX = fromX + 1 ∨ toX = fromX + 2)) ∨
    (color ≠ "W" ∧ (toX = fromX - 1 ∨ toX = fromX - 2)) := by
  unfold validPawnMove at h
  simp only at h
  split at h
  · rename_i hw
    left
    refine ⟨hw, ?_⟩
    rcases bind_ite_cases h with ⟨h1, -⟩ | ⟨-, h⟩
    · rw [andM_eq_some_true] at h1
      simp at h1
      omega
    rcases bind_ite_cases h with ⟨h1, -⟩ | ⟨-, h⟩
    · rw [andM_eq_some_true] at h1
      simp at h1
      omega
    rcases bind_ite_cases h with ⟨h1, -⟩ | ⟨-, h⟩
    · rw [andM_eq_some_true] at h1
      simp at h1
      omega
    split at h
    · rename_i hc
      simp at hc
      omega
    · simp at h
  · rename_i hw
    right
    refine ⟨hw, ?_⟩
    rcases bind_ite_cases h with ⟨h1, -⟩ | ⟨-, h⟩
    · rw [andM_eq_some_true] at h1
      simp at h1
      omega
    rcases bind_ite_cases h with ⟨h1, -⟩ | ⟨-, h⟩
    · rw [andM_eq_some_true] at h1
      simp at h1
      omega
    rcases bind_ite_cases h with ⟨h1, -⟩ | ⟨-, h⟩
    · rw [andM_eq_some_true] at h1
      simp at h1
      omega
    split at h
    · rename_i hc
      simp at hc
      omega
    · simp at h

/-- The board left by Initialize: the starting position on rows 0, 1, 6 and 7,
the given board on rows 2 to 5. -/
theorem Initialize_board (gs : GameState) :
    (Initialize gs).Board
      = fun i j => if i = 0 ∨ i = 1 ∨ i = 6 ∨ i = 7 then initCell i j else gs.Board i j := by
  funext i j
  fin_cases i <;> fin_cases j <;> rfl

theorem Initialize_noEdgePawn (gs : GameState) : NoEdgePawn (Initialize gs).Board := by
  intro i j p h hi
  rw [Initialize_board] at h
  rcases hi with rfl | rfl
  · fin_cases j <;> simp [initCell] at h <;> subst h <;> decide
  · fin_cases j <;> simp [initCell] at h <;> subst h <;> decide

/-- An accepted move: the source cell is emptied and the target cell holds a
Queen when a Pawn arrives on row 7 (color W) or row 0 (other colors), else the
moved piece. -/
theorem MovePiece_true_cells {gs gs1 : GameState} {fromX fromY toX toY : Int}
    (hfx : inRange fromX) (hfy : inRange fromY) (htx : inRange toX) (hty : inRange toY)
    (h : MovePiece gs fromX fromY toX toY = some (true, gs1)) :
    ∃ p, gs.Board (idx fromX) (idx fromY) = some p ∧
      gs1.Board (idx fromX) (idx fromY) = none ∧
      gs1.Board (idx toX) (idx toY) =
        some (if p.Kind = "P" ∧ toX = (if p.Color = "W" then 7 else 0)
          then ⟨"Q", p.Color⟩ else p) ∧
      (∀ i j, ¬(i = idx fromX ∧ j = idx fromY) → ¬(i = idx toX ∧ j = idx toY) →
        gs1.Board i j = gs.Board i j) := by
  obtain ⟨piece, hp, hcol, hrule, hcommit⟩ := MovePiece_true_fields hfx hfy htx hty h
  obtain ⟨hb, -⟩ := commit_eq hfx hfy htx hty hcommit
  have hne : ¬(idx toX = idx fromX ∧ idx toY = idx fromY) := by
    rintro ⟨h1, h2⟩
    rw [h1, h2] at hcol
    exact hcol piece hp rfl
  refine ⟨piece, hp, ?_, ?_, ?_⟩
  · rw [hb]; simp
  · rw [hb]
    simp only [hne, if_false, and_self, if_true]
    by_cases hP : piece.Kind = "P"
    · have hr : MovePiece.rule gs piece fromX fromY toX toY = some true := hrule
      unfold MovePiece.rule at hr
      simp only [hP, if_true] at hr
      cases hv : validPawnMove gs fromX fromY toX toY piece.Color with
      | none => simp [hv] at hr
      | some r =>
        obtain ⟨r1, r2⟩ := r
        simp [hv] at hr
        subst hr
        unfold inRange at hfx htx
        rcases validPawnMove_true_rows hv with ⟨hw, hrow⟩ | ⟨hw, hrow⟩
        · have : (toX = 0 ∨ toX = 7) ↔ toX = 7 := by omega
          simp only [hP, hw, this, true_and, if_true]
          split_ifs <;> rfl
        · have : (toX = 0 ∨ toX = 7) ↔ toX = 0 := by omega
          simp only [hP, hw, this, true_and, if_false]
          split_ifs <;> rfl
    · simp [hP]
  · intro i j h1 h2
    rw [hb]
    simp [h1, h2]

theorem MovePiece_noEdgePawn {gs gs1 : GameState} {fromX fromY toX toY : Int} {ok : Bool}
    (hfx : inRange fromX) (hfy : inRange fromY) (htx : inRange toX) (hty : inRange toY)
    (h : MovePiece gs fromX fromY toX toY = some (ok, gs1)) (hinv : NoEdgePawn gs.Board) :
    NoEdgePawn gs1.Board := by
  cases ok with
  | false => rw [MovePiece_false h]; exact hinv
  | true =>
    obtain ⟨piece, hp, hcol, hrule, hcommit⟩ := MovePiece_true_fields hfx hfy htx hty h
    obtain ⟨hb, -⟩ := commit_eq hfx hfy htx hty hcommit
    intro i j p hcell hi
    rw [hb] at hcell
    simp only at hcell
    split_ifs at hcell with h1 h2 h3
    · simp at hcell
      subst hcell
      simp
    · simp at hcell
      subst hcell
      intro hP
      apply h3
      refine ⟨hP, ?_⟩
      have hi2 : idx toX = 0 ∨ idx toX = 7 := by rw [← h2.1]; exact hi
      unfold inRange at htx
      rcases hi2 with h0 | h7
      · left
        have : idx toX = idx 0 := h0
        exact (idx_eq_iff htx (by unfold inRange; omega)).1 this
      · right
        have : idx toX = idx 7 := h7
        exact (idx_eq_iff htx (by unfold inRange; omega)).1 this
    · exact hinv i j p hcell hi

theorem Reachable_noEdgePawn {gs : GameState} (h : Reachable gs) : NoEdgePawn gs.Board := by
  induction h with
  | init => exact Initialize_noEdgePawn _
  | move _ hfx hfy htx hty hm ih => exact MovePiece_noEdgePawn hfx hfy htx hty hm ih

/-- What MovePiece alone guarantees about promotion: when it returns true the
source square is empty afterwards and the destination square holds a Queen of
the mover's color if the moved piece is a Pawn that arrived on the farthest
row for its color (row 7 for W, row 0 for any other color), and otherwise the
moved piece itself; and in every state reached from the initialised starting
state by calls of MovePiece only, no Pawn stands on row 0 or on row 7.  The
loop of `main` also calls IsCheckmate, whose restore breaks the second part
for the states of a game. -/
theorem MovePiece_relocates_and_promotes :
    (∀ (gs gs1 : GameState) (fromX fromY toX toY : Int),
      inRange fromX → inRange fromY → inRange toX → inRange toY →
      MovePiece gs fromX fromY toX toY = some (true, gs1) →
      ∃ p, gs.Board (idx fromX) (idx fromY) = some p ∧
        gs1.Board (idx fromX) (idx fromY) = none ∧
        gs1.Board (idx toX) (idx toY) =
          some (if p.Kind = "P" ∧ toX = (if p.Color = "W" then 7 else 0)
            then ⟨"Q", p.Color⟩ else p)) ∧
    (∀ gs : GameState, Reachable gs → NoEdgePawn gs.Board) := by
  refine ⟨?_, fun gs h => Reachable_noEdgePawn h⟩
  intro gs gs1 fromX fromY toX toY hfx hfy htx hty h
  obtain ⟨p, h1, h2, h3, -⟩ := MovePiece_true_cells hfx hfy htx hty h
  exact ⟨p, h1, h2, h3⟩

/-- On a piece of one of the six kinds the switch of MovePiece and the switch
of IsValidMove give the same answer. -/
theorem IsValidMove_eq_rule {gs : GameState} (piece : Piece) {fromX fromY toX toY : Int}
    (hp : Board.get gs.Board fromX fromY = some (some piece))
    (hk : piece.Kind ∈ ["P", "R", "N", "B", "Q", "K"]) :
    (IsValidMove gs fromX fromY toX toY).map Prod.fst
      = MovePiece.rule gs piece fromX fromY toX toY := by
  unfold IsValidMove MovePiece.rule
  simp only [hp, Option.some_bind]
  simp only [List.mem_cons, List.mem_singleton, List.not_mem_nil, or_false] at hk
  rcases hk with hk | hk | hk | hk | hk | hk <;> simp [hk, Function.comp_def]

theorem map_pair_state {α : Type} {X : Option α} {f : α → Bool} {gs gs1 : GameState} {r : Bool}
    (h : X.map (fun a => (f a, gs)) = some (r, gs1)) : gs1 = gs := by
  cases X with
  | none => simp at h
  | some a => simp at h; exact h.2.symm

/-- The answer of IsValidMove comes with the state it was given. -/
theorem IsValidMove_state {gs gs1 : GameState} {fromX fromY toX toY : Int} {r : Bool}
    (h : IsValidMove gs fromX fromY toX toY = some (r, gs1)) : gs1 = gs := by
  unfold IsValidMove at h
  cases hc : Board.get gs.Board fromX fromY with
  | none => simp [hc] at h
  | some cell =>
    cases cell with
    | none => simp [hc] at h; exact h.2.symm
    | some piece =>
      simp only [hc, Option.some_bind] at h
      split_ifs at h
      · exact map_pair_state h
      · exact map_pair_state h
      · simp at h; exact h.2.symm
      · exact map_pair_state h
      · exact map_pair_state h
      · exact map_pair_state h
      · simp at h; exact h.2.symm

/-- C1: on a state whose pieces all have one of the six kinds, MovePiece with
coordinates in [0,7] returns true exactly when the source square holds a
piece, the destination square holds no piece of that piece's color, and
IsValidMove returns true for the same squares on the same state. -/
theorem MovePiece_true_iff (gs : GameState) (fromX fromY toX toY : Int)
    (hfx : inRange fromX) (hfy : inRange fromY) (htx : inRange toX) (hty : inRange toY)
    (hk : ∀ i j p, gs.Board i j = some p → p.Kind ∈ ["P", "R", "N", "B", "Q", "K"]) :
    (MovePiece gs fromX fromY toX toY).map Prod.fst = some true ↔
      ∃ p, gs.Board (idx fromX) (idx fromY) = some p ∧
        (∀ q, gs.Board (idx toX) (idx toY) = some q → q.Color ≠ p.Color) ∧
        (IsValidMove gs fromX fromY toX toY).map Prod.fst = some true := by
  constructor
  · intro h
    cases hm : MovePiece gs fromX fromY toX toY with
    | none => simp [hm] at h
    | some r =>
      obtain ⟨ok, gs1⟩ := r
      simp [hm] at h
      subst h
      obtain ⟨piece, hp, hcol, hrule, -⟩ := MovePiece_true_fields hfx hfy htx hty hm
      refine ⟨piece, hp, hcol, ?_⟩
      rw [IsValidMove_eq_rule piece (by rw [Board.get_inRange _ hfx hfy, hp])
        (hk _ _ _ hp)]
      exact hrule
  · rintro ⟨p, hp, hcol, hv⟩
    rw [IsValidMove_eq_rule p (by rw [Board.get_inRange _ hfx hfy, hp])
      (hk _ _ _ hp)] at hv
    unfold MovePiece
    rw [Board.get_inRange _ hfx hfy, hp, Board.get_inRange _ htx hty]
    simp only [Option.some_bind, hv]
    have hc : (match gs.Board (idx toX) (idx toY) with
        | some t => t.Color == p.Color
        | none => false) = false := by
      cases ht : gs.Board (idx toX) (idx toY) with
      | none => rfl
      | some t => simpa using hcol t ht
    rw [hc]
    simp [MovePiece.commit, Board.set_inRange _ htx hty, Board.set_inRange _ hfx hfy]

/-- The attacker scan hands back the state it was given. -/
theorem attackScan_state {color : String} {kingX kingY : Int} :
    ∀ (l : List (Int × Int)) (gs gs1 : GameState) (r : Bool),
      attackScan color kingX kingY l gs = some (r, gs1) → gs1 = gs := by
  intro l
  induction l with
  | nil =>
    intro gs gs1 r h
    simp [attackScan] at h
    exact h.2.symm
  | cons sq rest ih =>
    intro gs gs1 r h
    obtain ⟨x, y⟩ := sq
    unfold attackScan at h
    cases hc : andM ((isNil gs.Board x y).map not) (colorDiffers gs.Board x y color) with
    | none => simp [hc] at h
    | some c =>
      simp only [hc, Option.some_bind] at h
      cases c with
      | false => exact ih gs gs1 r (by simpa using h)
      | true =>
        simp only [if_true] at h
        cases hv : IsValidMove gs x y kingX kingY with
        | none => simp [hv] at h
        | some v =>
          obtain ⟨v1, v2⟩ := v
          have hs : v2 = gs := IsValidMove_state hv
          subst hs
          simp only [hv, Option.some_bind] at h
          cases v1 with
          | true => simp at h; exact h.2.symm
          | false => exact ih _ gs1 r (by simpa using h)

/-- C8: IsValidMove and IsInCheck are read-only: whatever answer a call gives,
the state it leaves (board, four castling flags, en-passant target) is the
state it was given; the stores made by validPawnMove and validKingMove go to
their local copy of the board. -/
theorem IsValidMove_IsInCheck_read_only (gs gs1 : GameState) (r : Bool) :
    (∀ fromX fromY toX toY : Int,
      IsValidMove gs fromX fromY toX toY = some (r, gs1) → gs1 = gs) ∧
    (∀ color : String, IsInCheck gs color = some (r, gs1) → gs1 = gs) :=
  ⟨fun _ _ _ _ h => IsValidMove_state h, fun _ h => attackScan_state _ _ _ _ h⟩

/-- C3 (code defect): on the starting position with f1 and g1 emptied,
MovePiece(0,4,0,6) returns true, puts the king on g1 and clears both White
flags, but the rook is still on h1 and f1 is still empty: the two stores that
relocate the rook were made by validKingMove to its local copy of the board
(second equation), not to the board of the state. -/
theorem castling_does_not_move_rook :
    observe (MovePiece castleState 0 4 0 6) [(0, 4), (0, 5), (0, 6), (0, 7)]
      = some (true, [none, none, some ⟨"K", "W"⟩, some ⟨"R", "W"⟩],
          [false, false, true, true], (-1, -1)) ∧
    (validKingMove castleState 0 4 0 6).map (fun r => (r.1, [r.2 0 5, r.2 0 7]))
      = some (true, [some ⟨"R", "W"⟩, none]) := by
  constructor <;> decide

/-- C4 (code defect): with a White pawn on e2 and Black pawns on d4 and f4,
MovePiece(1,4,3,4) returns true and sets the en-passant target to (2,4); on
the resulting state MovePiece(3,3,2,4), the capture d4 takes e3, returns false
and changes nothing, because the Black en-passant test of validPawnMove only
accepts toY = fromY - 1; the capture f4 takes e3, MovePiece(3,5,2,4), is
accepted but the White pawn is still on e4 afterwards. -/
theorem enPassant_capture_rejected_or_incomplete :
    observe (MovePiece enPassantState 1 4 3 4) [(1, 4), (2, 4), (3, 4), (3, 3)]
      = some (true, [none, none, some ⟨"P", "W"⟩, some ⟨"P", "B"⟩],
          [false, false, false, false], (2, 4)) ∧
    observe ((MovePiece enPassantState 1 4 3 4).bind fun r => MovePiece r.2 3 3 2 4)
        [(2, 4), (3, 3), (3, 4)]
      = some (false, [none, some ⟨"P", "B"⟩, some ⟨"P", "W"⟩],
          [false, false, false, false], (2, 4)) ∧
    observe ((MovePiece enPassantState 1 4 3 4).bind fun r => MovePiece r.2 3 5 2 4)
        [(2, 4), (3, 5), (3, 4)]
      = some (true, [some ⟨"P", "B"⟩, none, some ⟨"P", "W"⟩],
          [false, false, false, false], (-1, -1)) := by
  refine ⟨?_, ?_, ?_⟩ <;> decide

set_option maxRecDepth 1000000

/-- C10 (code defect): with the Black king on e8 and an unprotected White queen
on e7, Black is in check, the capture MovePiece(7,4,6,4) is accepted and leaves
Black out of check, and yet IsCheckmate("B") returns true: the first accepted
trial, e8 to d7, does not escape, and the restore of lines 374-375 stores the
old content of the target square in both squares, so the king is gone from e8
(first equation, cell (7,4)) before the capture is tried. -/
theorem IsCheckmate_true_despite_escape :
    observe (IsCheckmate looseQueenState "B") [(7, 4), (6, 3), (6, 4)]
      = some (true, [none, none, some ⟨"Q", "W"⟩], [false, false, false, false], (-1, -1)) ∧
    (IsInCheck looseQueenState "B").map Prod.fst = some true ∧
    observe (MovePiece looseQueenState 7 4 6 4) [(7, 4), (6, 4)]
      = some (true, [none, some ⟨"K", "B"⟩], [false, false, false, false], (-1, -1)) ∧
    ((MovePiece looseQueenState 7 4 6 4).bind fun r => IsInCheck r.2 "B").map Prod.fst
      = some false := by
  refine ⟨?_, ?_, ?_, ?_⟩ <;> decide

theorem looseQueenState_kinds :
    ∀ i j p, looseQueenState.Board i j = some p → p.Kind ∈ ["P", "R", "N", "B", "Q", "K"] := by
  intro i j p h
  simp only [looseQueenState] at h
  split_ifs at h <;> simp at h <;> subst h <;> decide

theorem MovePiece_true_iff_witness :
    (MovePiece looseQueenState 7 4 6 4).map Prod.fst = some true ↔
      ∃ p, looseQueenState.Board (idx 7) (idx 4) = some p ∧
        (∀ q, looseQueenState.Board (idx 6) (idx 4) = some q → q.Color ≠ p.Color) ∧
        (IsValidMove looseQueenState 7 4 6 4).map Prod.fst = some true :=
  MovePiece_true_iff looseQueenState 7 4 6 4 (by decide) (by decide) (by decide) (by decide)
    looseQueenState_kinds

theorem MovePiece_castling_flags_witness :
    (stateAfter (MovePiece castleState 0 4 0 6) castleState).WhiteCanCastleKingSide = false ∧
    (stateAfter (MovePiece castleState 0 4 0 6) castleState).BlackCanCastleKingSide = true := by
  have h : MovePiece castleState 0 4 0 6
      = some (true, stateAfter (MovePiece castleState 0 4 0 6) castleState) := by rfl
  obtain ⟨h1, -⟩ := MovePiece_castling_flags castleState _ true 0 4 0 6
    (by decide) (by decide) (by decide) (by decide) h
  obtain ⟨p, hp, hwk, -, hbk, -⟩ := h1 rfl
  have hp2 : p = ⟨"K", "W"⟩ := by
    have : castleState.Board (idx 0) (idx 4) = some ⟨"K", "W"⟩ := by decide
    rw [this] at hp
    exact (Option.some.inj hp).symm
  subst hp2
  exact ⟨by rw [hwk]; decide, by rw [hbk]; decide⟩

theorem MovePiece_enPassantTarget_witness :
    (stateAfter (MovePiece enPassantState 1 4 3 4) enPassantState).EnPassantTarget = (2, 4) := by
  have h : MovePiece enPassantState 1 4 3 4
      = some (true, stateAfter (MovePiece enPassantState 1 4 3 4) enPassantState) := by rfl
  obtain ⟨p, hp, ht⟩ := MovePiece_enPassantTarget enPassantState _ 1 4 3 4
    (by decide) (by decide) (by decide) (by decide) h
  have hp2 : p = ⟨"P", "W"⟩ := by
    have : enPassantState.Board (idx 1) (idx 4) = some ⟨"P", "W"⟩ := by decide
    rw [this] at hp
    exact (Option.some.inj hp).symm
  subst hp2
  rw [ht]
  decide

theorem MovePiece_relocates_and_promotes_witness :
    ∃ p, enPassantState.Board (idx 1) (idx 4) = some p ∧
      (stateAfter (MovePiece enPassantState 1 4 3 4) enPassantState).Board (idx 1) (idx 4)
        = none ∧
      (stateAfter (MovePiece enPassantState 1 4 3 4) enPassantState).Board (idx 3) (idx 4)
        = some (if p.Kind = "P" ∧ (3 : Int) = (if p.Color = "W" then 7 else 0)
            then ⟨"Q", p.Color⟩ else p) :=
  MovePiece_relocates_and_promotes.1 enPassantState _ 1 4 3 4
    (by decide) (by decide) (by decide) (by decide) (by rfl)

theorem IsValidMove_IsInCheck_read_only_witness :
    stateAfter (IsValidMove castleState 0 4 0 6) looseQueenState = castleState ∧
    stateAfter (IsInCheck looseQueenState "B") castleState = looseQueenState := by
  have h1 : IsValidMove castleState 0 4 0 6
      = some (true, stateAfter (IsValidMove castleState 0 4 0 6) looseQueenState) := by rfl
  have h2 : IsInCheck looseQueenState "B"
      = some (true, stateAfter (IsInCheck looseQueenState "B") castleState) := by rfl
  exact ⟨(IsValidMove_IsInCheck_read_only castleState _ true).1 0 4 0 6 h1,
    (IsValidMove_IsInCheck_read_only looseQueenState _ true).2 "B" h2⟩

/-! ## The rules do not panic on squares of the board -/

theorem bind_ite_isSome {α : Type} {X : Option Bool} {A B : Option α} (hX : X.isSome)
    (hA : X = some true → A.isSome) (hB : X = some false → B.isSome) :
    (X.bind fun c => if c then A else B).isSome := by
  cases X with
  | none => simp at hX
  | some v => cases v <;> simp_all

theorem andM_isSome {a b : Option Bool} (ha : a.isSome) (hb : a = some true → b.isSome) :
    (andM a b).isSome := by
  cases a with
  | none => simp at ha
  | some v => cases v <;> simp_all [andM]

theorem isNil_inRange (board : Board) {x y : Int} (hx : inRange x) (hy : inRange y) :
    isNil board x y = some (board (idx x) (idx y)).isNone := by
  simp [isNil, Board.get_inRange _ hx hy]

theorem isNil_isSome (board : Board) {x y : Int} (hx : inRange x) (hy : inRange y) :
    (isNil board x y).isSome := by
  simp [isNil_inRange _ hx hy]

theorem colorDiffers_isSome (board : Board) {x y : Int} {color : String}
    (h : (isNil board x y).map not = some true) : (colorDiffers board x y color).isSome := by
  unfold isNil at h
  unfold colorDiffers deref
  cases hg : Board.get board x y with
  | none => simp [hg] at h
  | some c =>
    cases c with
    | none => simp [hg] at h
    | some p => simp

theorem validPawnMove_isSome (gs : GameState) {fromX fromY toX toY : Int} (color : String)
    (hfx : inRange fromX) (htx : inRange toX) (hty : inRange toY) :
    (validPawnMove gs fromX fromY toX toY color).isSome := by
  unfold validPawnMove
  simp only
  have hn := isNil_isSome gs.Board htx hty
  unfold inRange at hfx htx
  split
  · refine bind_ite_isSome ?_ (fun _ => by simp) (fun _ => ?_)
    · refine andM_isSome (by simp) (fun h => andM_isSome hn (fun _ => ?_))
      simp at h
      exact isNil_isSome _ (by unfold inRange; omega) hty
    refine bind_ite_isSome (andM_isSome (by simp) (fun _ => hn)) (fun _ => by simp) (fun _ => ?_)
    refine bind_ite_isSome ?_ (fun _ => by simp) (fun _ => ?_)
    · refine andM_isSome (by simp) (fun _ => andM_isSome ?_ (fun h => colorDiffers_isSome _ h))
      rw [isNil_inRange _ htx hty]; simp
    split
    · rename_i hc
      simp at hc
      rw [Board.set_inRange _ (by unfold inRange; omega) hty]
      simp
    · simp
  · refine bind_ite_isSome ?_ (fun _ => by simp) (fun _ => ?_)
    · refine andM_isSome (by simp) (fun h => andM_isSome hn (fun _ => ?_))
      simp at h
      exact isNil_isSome _ (by unfold inRange; omega) hty
    refine bind_ite_isSome (andM_isSome (by simp) (fun _ => hn)) (fun _ => by simp) (fun _ => ?_)
    refine bind_ite_isSome ?_ (fun _ => by simp) (fun _ => ?_)
    · refine andM_isSome (by simp) (fun _ => andM_isSome ?_ (fun h => colorDiffers_isSome _ h))
      rw [isNil_inRange _ htx hty]; simp
    split
    · rename_i hc
      simp at hc
      rw [Board.set_inRange _ (by unfold inRange; omega) hty]
      simp
    · simp

theorem scanClear_isSome (cell : Int → Option (Option Piece)) :
    ∀ (n : Nat) (i : Int), (∀ k : Int, i ≤ k → k < i + n → (cell k).isSome) →
      (scanClear cell n i).isSome := by
  intro n
  induction n with
  | zero => intro i _; simp [scanClear]
  | succ n ih =>
    intro i h
    unfold scanClear
    have h0 := h i (le_refl _) (by push_cast; omega)
    cases hc : cell i with
    | none => simp [hc] at h0
    | some c =>
      simp only [Option.some_bind]
      split
      · simp
      · exact ih (i + 1) (fun k hk1 hk2 => h k (by omega) (by push_cast; omega))

theorem validRookMove_isSome (board : Board) {fromX fromY toX toY : Int}
    (hfx : inRange fromX) (hfy : inRange fromY) (htx : inRange toX) (hty : inRange toY) :
    (validRookMove board fromX fromY toX toY).isSome := by
  unfold validRookMove
  split
  · simp
  split
  · apply scanClear_isSome
    intro k hk1 hk2
    rw [Board.get_inRange _ hfx]
    · simp
    · unfold inRange at *
      unfold min max at *
      split_ifs at hk1 hk2 <;> omega
  · apply scanClear_isSome
    intro k hk1 hk2
    rw [Board.get_inRange _ _ hfy]
    · simp
    · unfold inRange at *
      unfold min max at *
      split_ifs at hk1 hk2 <;> omega

/-- The diagonal scan started `n` steps before the target reaches it without
leaving the board, whatever fuel above `n` it is given. -/
theorem bishopLoop_isSome (board : Board) {xStep yStep toX toY : Int}
    (hxs : xStep = 1 ∨ xStep = -1) (hys : yStep = 1 ∨ yStep = -1)
    (htx : inRange toX) (hty : inRange toY) :
    ∀ (n fuel : Nat) (x y : Int), n < fuel → inRange x → inRange y →
      x + n * xStep = toX → y + n * yStep = toY →
      (bishopLoop board xStep yStep toX toY fuel x y).isSome := by
  intro n
  induction n with
  | zero =>
    intro fuel x y hf _ _ hx _
    obtain ⟨m, rfl⟩ : ∃ m, fuel = m + 1 := ⟨fuel - 1, by omega⟩
    unfold bishopLoop
    simp at hx
    simp [hx]
  | succ n ih =>
    intro fuel x y hf hxr hyr hx hy
    obtain ⟨m, rfl⟩ : ∃ m, fuel = m + 1 := ⟨fuel - 1, by omega⟩
    unfold bishopLoop
    split
    · rw [Board.get_inRange _ hxr hyr]
      simp only [Option.some_bind]
      split
      · simp
      · apply ih m (x + xStep) (y + yStep) (by omega)
        · unfold inRange at *
          push_cast at hx
          rcases hxs with rfl | rfl <;> omega
        · unfold inRange at *
          push_cast at hy
          rcases hys with rfl | rfl <;> omega
        · push_cast at hx; rw [← hx]; ring
        · push_cast at hy; rw [← hy]; ring
    · simp

theorem validBishopMove_isSome (board : Board) {fromX fromY toX toY : Int}
    (hfx : inRange fromX) (hfy : inRange fromY) (htx : inRange toX) (hty : inRange toY)
    (hne : ¬(fromX = toX ∧ fromY = toY)) :
    (validBishopMove board fromX fromY toX toY).isSome := by
  unfold validBishopMove
  split
  · simp
  · rename_i habs
    simp only [not_not] at habs
    simp only
    have hd : abs (fromX - toX) = abs (fromY - toY) := habs
    unfold abs at hd
    unfold inRange at hfx hfy htx hty
    have hx1 : fromX ≠ toX := by
      intro h
      apply hne
      refine ⟨h, ?_⟩
      subst h
      simp at hd
      split_ifs at hd <;> omega
    have hn : ∃ n : Nat, (n : Int) + 1 = abs (fromX - toX) ∧ n < 7 := by
      unfold abs
      refine ⟨(abs (fromX - toX) - 1).toNat, ?_, ?_⟩ <;> unfold abs <;> split_ifs <;> omega
    obtain ⟨n, hn1, hn2⟩ := hn
    unfold abs at hn1
    apply bishopLoop_isSome board (n := n)
    · split_ifs <;> simp
    · split_ifs <;> simp
    · exact htx
    · exact hty
    · omega
    · unfold inRange; split_ifs <;> split_ifs at hn1 <;> omega
    · unfold inRange; split_ifs <;> split_ifs at hn1 hd <;> omega
    · split_ifs <;> split_ifs at hn1 <;> omega
    · split_ifs <;> split_ifs at hn1 hd <;> omega

theorem validQueenMove_isSome (board : Board) {fromX fromY toX toY : Int}
    (hfx : inRange fromX) (hfy : inRange fromY) (htx : inRange toX) (hty : inRange toY)
    (hne : ¬(fromX = toX ∧ fromY = toY)) :
    (validQueenMove board fromX fromY toX toY).isSome := by
  unfold validQueenMove orM
  have h1 := validRookMove_isSome board hfx hfy htx hty
  have h2 := validBishopMove_isSome board hfx hfy htx hty hne
  cases hr : validRookMove board fromX fromY toX toY with
  | none => simp [hr] at h1
  | some v => cases v <;> simp [h2]

theorem castleLocal_isSome (board : Board) {fromX newY rookY : Int}
    (hfx : inRange fromX) (hn : inRange newY) (hr : inRange rookY) :
    (castleLocal board fromX newY rookY).isSome := by
  unfold castleLocal
  rw [Board.get_inRange _ hfx hr]
  simp only [Option.some_bind]
  rw [Board.set_inRange _ hfx hn]
  simp only [Option.some_bind]
  rw [Board.set_inRange _ hfx hr]
  simp

theorem castleWhite_isSome (gs : GameState) (board : Board) {fromX fromY toY : Int}
    (hfx : inRange fromX) (hfy : inRange fromY) (hty : inRange toY)
    (h2 : abs (fromY - toY) = 2) (hocc : (board (idx fromX) (idx toY)).isSome) :
    (castleWhite gs board fromX fromY toY).isSome := by
  unfold castleWhite
  unfold abs at h2
  have hfy2 := hfy
  have hty2 := hty
  unfold inRange at hfy2 hty2
  refine bind_ite_isSome ?_ (fun h => ?_) (fun _ => ?_)
  · refine andM_isSome (by simp) (fun h => ?_)
    simp at h
    have h1 : inRange (fromY + 1) := by unfold inRange; split_ifs at h2 <;> omega
    have h3 : inRange (fromY + 2) := by unfold inRange; split_ifs at h2 <;> omega
    exact andM_isSome (isNil_isSome _ hfx h1) (fun _ => isNil_isSome _ hfx h3)
  · rw [andM_eq_some_true] at h
    simp at h
    exact castleLocal_isSome _ hfx (by unfold inRange; omega) (by unfold inRange; omega)
  refine bind_ite_isSome ?_ (fun h => ?_) (fun _ => by simp)
  · refine andM_isSome (by simp) (fun h => ?_)
    simp at h
    have h1 : inRange (fromY - 1) := by unfold inRange; split_ifs at h2 <;> omega
    have h3 : fromY - 2 = toY := by split_ifs at h2 <;> omega
    refine andM_isSome (isNil_isSome _ hfx h1) (fun _ => ?_)
    rw [h3]
    refine andM_isSome (isNil_isSome _ hfx hty) (fun hn => ?_)
    rw [isNil_inRange _ hfx hty] at hn
    cases hc : board (idx fromX) (idx toY) with
    | none => simp [hc] at hocc
    | some p => simp [hc] at hn
  · rw [andM_eq_some_true] at h
    simp at h
    exact castleLocal_isSome _ hfx (by unfold inRange; omega) (by unfold inRange; omega)

theorem castleBlack_isSome (gs : GameState) (board : Board) {fromX fromY toY : Int}
    (hfx : inRange fromX) (hfy : inRange fromY) (hty : inRange toY)
    (h2 : abs (fromY - toY) = 2) (hocc : (board (idx fromX) (idx toY)).isSome) :
    (castleBlack gs board fromX fromY toY).isSome := by
  unfold castleBlack
  unfold abs at h2
  have hfy2 := hfy
  have hty2 := hty
  unfold inRange at hfy2 hty2
  refine bind_ite_isSome ?_ (fun h => ?_) (fun _ => ?_)
  · refine andM_isSome (by simp) (fun h => ?_)
    simp at h
    have h1 : inRange (fromY + 1) := by unfold inRange; split_ifs at h2 <;> omega
    have h3 : inRange (fromY + 2) := by unfold inRange; split_ifs at h2 <;> omega
    exact andM_isSome (isNil_isSome _ hfx h1) (fun _ => isNil_isSome _ hfx h3)
  · rw [andM_eq_some_true] at h
    simp at h
    exact castleLocal_isSome _ hfx (by unfold inRange; omega) (by unfold inRange; omega)
  refine bind_ite_isSome ?_ (fun h => ?_) (fun _ => by simp)
  · refine andM_isSome (by simp) (fun h => ?_)
    simp at h
    have h1 : inRange (fromY - 1) := by unfold inRange; split_ifs at h2 <;> omega
    have h3 : fromY - 2 = toY := by split_ifs at h2 <;> omega
    refine andM_isSome (isNil_isSome _ hfx h1) (fun _ => ?_)
    rw [h3]
    refine andM_isSome (isNil_isSome _ hfx hty) (fun hn => ?_)
    rw [isNil_inRange _ hfx hty] at hn
    cases hc : board (idx fromX) (idx toY) with
    | none => simp [hc] at hocc
    | some p => simp [hc] at hn
  · rw [andM_eq_some_true] at h
    simp at h
    exact castleLocal_isSome _ hfx (by unfold inRange; omega) (by unfold inRange; omega)

theorem validKingMove_isSome (gs : GameState) {fromX fromY toX toY : Int}
    (hfx : inRange fromX) (hfy : inRange fromY) (hty : inRange toY)
    (hsrc : (gs.Board (idx fromX) (idx fromY)).isSome)
    (hocc : (gs.Board (idx toX) (idx toY)).isSome) :
    (validKingMove gs fromX fromY toX toY).isSome := by
  unfold validKingMove
  simp only
  split
  · simp
  split
  · rename_i hc
    obtain ⟨hx, h2⟩ := hc
    rw [← hx] at hocc
    rw [Board.get_inRange _ hfx hfy]
    cases hp : gs.Board (idx fromX) (idx fromY) with
    | none => simp [hp] at hsrc
    | some king =>
      simp only [Option.some_bind, deref]
      split
      · exact castleWhite_isSome gs _ hfx hfy hty h2 hocc
      · exact castleBlack_isSome gs _ hfx hfy hty h2 hocc
  · simp

/-- IsValidMove completes, and hands back its state, when both squares are on
the board, differ, and the target square is occupied. -/
theorem IsValidMove_total (gs : GameState) {fromX fromY toX toY : Int}
    (hfx : inRange fromX) (hfy : inRange fromY) (htx : inRange toX) (hty : inRange toY)
    (hne : ¬(fromX = toX ∧ fromY = toY))
    (hocc : (gs.Board (idx toX) (idx toY)).isSome) :
    ∃ r, IsValidMove gs fromX fromY toX toY = some (r, gs) := by
  have key : (IsValidMove gs fromX fromY toX toY).isSome := by
    unfold IsValidMove
    rw [Board.get_inRange _ hfx hfy]
    simp only [Option.some_bind]
    cases hp : gs.Board (idx fromX) (idx fromY) with
    | none => simp
    | some piece =>
      simp only
      split_ifs
      · simpa using validPawnMove_isSome gs piece.Color hfx htx hty
      · simpa using validRookMove_isSome gs.Board hfx hfy htx hty
      · simp
      · simpa using validBishopMove_isSome gs.Board hfx hfy htx hty hne
      · simpa using validQueenMove_isSome gs.Board hfx hfy htx hty hne
      · simpa using validKingMove_isSome gs hfx hfy hty (by simp [hp]) hocc
      · simp
  cases hv : IsValidMove gs fromX fromY toX toY with
  | none => simp [hv] at key
  | some v =>
    obtain ⟨r, gs1⟩ := v
    have := IsValidMove_state hv
    subst this
    exact ⟨r, rfl⟩

theorem mem_range8 {x : Int} : x ∈ range8 ↔ inRange x := by
  unfold range8 inRange
  simp only [List.mem_cons, List.mem_singleton, List.not_mem_nil, or_false]
  omega

theorem mem_allSquares {x y : Int} : (x, y) ∈ allSquares ↔ inRange x ∧ inRange y := by
  unfold allSquares
  simp only [List.mem_flatMap, List.mem_map, Prod.mk.injEq]
  constructor
  · rintro ⟨a, ha, b, hb, rfl, rfl⟩
    exact ⟨mem_range8.1 ha, mem_range8.1 hb⟩
  · rintro ⟨hx, hy⟩
    exact ⟨x, mem_range8.2 hx, y, mem_range8.2 hy, rfl, rfl⟩

/-- With exactly one King of `color` on the board, the row search finds it in
its row and nothing in the other rows. -/
theorem findKingInRow_unique {board : Board} {color : String} {kx ky : Int}
    (hky : inRange ky)
    (hking : isKingOf color (board (idx kx) (idx ky)) = true)
    (huniq : ∀ x y, inRange x → inRange y →
      isKingOf color (board (idx x) (idx y)) = true → x = kx ∧ y = ky)
    {x : Int} (hx : inRange x) :
    findKingInRow board color x = if x = kx then some ky else none := by
  unfold findKingInRow
  cases hf : range8.find? (fun y => isKingOf color (board (idx x) (idx y))) with
  | none =>
    split
    · rename_i hxk
      subst hxk
      rw [List.find?_eq_none] at hf
      have := hf ky (mem_range8.2 hky)
      simp [hking] at this
    · rfl
  | some y =>
    have hy : inRange y := mem_range8.1 (List.mem_of_find?_eq_some hf)
    have hp := List.find?_some hf
    obtain ⟨h1, h2⟩ := huniq x y hx hy hp
    simp [h1, h2]

theorem findKing_unique {board : Board} {color : String} {kx ky : Int}
    (hkx : inRange kx) (hky : inRange ky)
    (hking : isKingOf color (board (idx kx) (idx ky)) = true)
    (huniq : ∀ x y, inRange x → inRange y →
      isKingOf color (board (idx x) (idx y)) = true → x = kx ∧ y = ky) :
    findKing board color = (kx, ky) := by
  have hrow := fun x hx => findKingInRow_unique (x := x) hky hking huniq hx
  unfold findKing range8
  simp only [List.foldl_cons, List.foldl_nil]
  rw [hrow 0 (by decide), hrow 1 (by decide), hrow 2 (by decide), hrow 3 (by decide),
    hrow 4 (by decide), hrow 5 (by decide), hrow 6 (by decide), hrow 7 (by decide)]
  unfold inRange at hkx
  obtain ⟨h0, h8⟩ := hkx
  interval_cases kx <;> simp

/-- With a piece of `color` on `(kx, ky)`, the attacker scan over squares of
the board completes, hands back its state, and answers true exactly when one
of the squares holds a piece of another color for which IsValidMove accepts
the move onto `(kx, ky)`. -/
theorem attackScan_spec (gs : GameState) (color : String) {kx ky : Int}
    (hkx : inRange kx) (hky : inRange ky) {king : Piece}
    (hking : gs.Board (idx kx) (idx ky) = some king) (hcol : king.Color = color) :
    ∀ l : List (Int × Int), (∀ sq ∈ l, inRange sq.1 ∧ inRange sq.2) →
      ∃ r, attackScan color kx ky l gs = some (r, gs) ∧
        (r = true ↔ ∃ sq ∈ l, ∃ p, gs.Board (idx sq.1) (idx sq.2) = some p ∧
          p.Color ≠ color ∧ (IsValidMove gs sq.1 sq.2 kx ky).map Prod.fst = some true) := by
  intro l
  induction l with
  | nil => intro _; exact ⟨false, by simp [attackScan], by simp⟩
  | cons sq rest ih =>
    intro hl
    obtain ⟨x, y⟩ := sq
    obtain ⟨hx, hy⟩ : inRange x ∧ inRange y := hl (x, y) (List.mem_cons_self _ _)
    obtain ⟨r, hr, hiff⟩ := ih (fun sq hsq => hl sq (List.mem_cons_of_mem _ hsq))
    unfold attackScan
    cases hp : gs.Board (idx x) (idx y) with
    | none =>
      refine ⟨r, ?_, ?_⟩
      · simp [andM, isNil_inRange _ hx hy, hp, hr]
      · rw [hiff]
        simp [hp]
    | some p =>
      have hc : colorDiffers gs.Board x y color = some (p.Color != color) := by
        simp [colorDiffers, deref, Board.get_inRange _ hx hy, hp]
      by_cases hpc : p.Color = color
      · refine ⟨r, ?_, ?_⟩
        · simp [andM, isNil_inRange _ hx hy, hp, hc, hpc, hr]
        · rw [hiff]
          simp [hp, hpc]
      · have hne : ¬(x = kx ∧ y = ky) := by
          rintro ⟨rfl, rfl⟩
          rw [hking] at hp
          simp at hp
          subst hp
          exact hpc hcol
        obtain ⟨v, hv⟩ := IsValidMove_total gs hx hy hkx hky hne (by simp [hking])
        cases v with
        | true =>
          refine ⟨true, ?_, ?_⟩
          · simp [andM, isNil_inRange _ hx hy, hp, hc, hpc, hv]
          · simp only [true_iff]
            exact ⟨(x, y), List.mem_cons_self _ _, p, hp, hpc, by simp [hv]⟩
        | false =>
          refine ⟨r, ?_, ?_⟩
          · simp [andM, isNil_inRange _ hx hy, hp, hc, hpc, hv, hr]
          · rw [hiff]
            simp [hp, hpc, hv]

/-- C9: on a state with exactly one King of `color`, standing on (kx, ky),
IsInCheck(color) completes, leaves the state as it was, and returns true
exactly when some square of the board holds a piece whose color differs from
`color` and for which IsValidMove onto (kx, ky) returns true; it returns false
when there is no such square. -/
theorem IsInCheck_iff_attacked (gs : GameState) (color : String) (kx ky : Int)
    (hkx : inRange kx) (hky : inRange ky)
    (hking : isKingOf color (gs.Board (idx kx) (idx ky)) = true)
    (huniq : ∀ x y, inRange x → inRange y →
      isKingOf color (gs.Board (idx x) (idx y)) = true → x = kx ∧ y = ky) :
    ∃ r, IsInCheck gs color = some (r, gs) ∧
      (r = true ↔ ∃ x y, inRange x ∧ inRange y ∧ ∃ p,
        gs.Board (idx x) (idx y) = some p ∧ p.Color ≠ color ∧
        (IsValidMove gs x y kx ky).map Prod.fst = some true) := by
  unfold IsInCheck
  simp only [findKing_unique hkx hky hking huniq]
  cases hk : gs.Board (idx kx) (idx ky) with
  | none => simp [hk, isKingOf] at hking
  | some king =>
    have hcol : king.Color = color := by
      simp [hk, isKingOf] at hking
      exact hking.2
    obtain ⟨r, hr, hiff⟩ := attackScan_spec gs color hkx hky hk hcol allSquares
      (fun sq hsq => mem_allSquares.1 hsq)
    refine ⟨r, hr, ?_⟩
    rw [hiff]
    constructor
    · rintro ⟨⟨x, y⟩, hsq, p, h1, h2, h3⟩
      exact ⟨x, y, (mem_allSquares.1 hsq).1, (mem_allSquares.1 hsq).2, p, h1, h2, h3⟩
    · rintro ⟨x, y, hx, hy, p, h1, h2, h3⟩
      exact ⟨(x, y), mem_allSquares.2 ⟨hx, hy⟩, p, h1, h2, h3⟩

theorem looseQueenState_one_black_king :
    ∀ x y, inRange x → inRange y →
      isKingOf "B" (looseQueenState.Board (idx x) (idx y)) = true → x = 7 ∧ y = 4 := by
  intro x y hx hy
  unfold inRange at hx hy
  obtain ⟨hx0, hx8⟩ := hx
  obtain ⟨hy0, hy8⟩ := hy
  interval_cases x <;> interval_cases y <;> decide

theorem IsInCheck_iff_attacked_witness :
    ∃ r, IsInCheck looseQueenState "B" = some (r, looseQueenState) ∧
      (r = true ↔ ∃ x y, inRange x ∧ inRange y ∧ ∃ p,
        looseQueenState.Board (idx x) (idx y) = some p ∧ p.Color ≠ "B" ∧
        (IsValidMove looseQueenState x y 7 4).map Prod.fst = some true) :=
  IsInCheck_iff_attacked looseQueenState "B" 7 4 (by decide) (by decide) (by decide)
    looseQueenState_one_black_king

theorem bishopLoop_fuel_aux (board : Board) {xStep yStep toX toY : Int}
    (hxs : xStep = 1 ∨ xStep = -1) :
    ∀ (d f1 f2 : Nat) (x y : Int),
      (inRange x → (if xStep = 1 then 8 - x else x + 1) ≤ (d : Int)) → d < f1 → d < f2 →
      bishopLoop board xStep yStep toX toY f1 x y
        = bishopLoop board xStep yStep toX toY f2 x y := by
  intro d
  induction d with
  | zero =>
    intro f1 f2 x y hd h1 h2
    obtain ⟨m1, rfl⟩ : ∃ m, f1 = m + 1 := ⟨f1 - 1, by omega⟩
    obtain ⟨m2, rfl⟩ : ∃ m, f2 = m + 1 := ⟨f2 - 1, by omega⟩
    unfold bishopLoop
    split
    · have hx : ¬inRange x := by
        intro hx
        have := hd hx
        unfold inRange at hx
        rcases hxs with rfl | rfl <;> simp at this <;> omega
      simp [Board.get, hx]
    · rfl
  | succ d ih =>
    intro f1 f2 x y hd h1 h2
    obtain ⟨m1, rfl⟩ : ∃ m, f1 = m + 1 := ⟨f1 - 1, by omega⟩
    obtain ⟨m2, rfl⟩ : ∃ m, f2 = m + 1 := ⟨f2 - 1, by omega⟩
    unfold bishopLoop
    split
    · cases hg : Board.get board x y with
      | none => rfl
      | some c =>
        obtain ⟨hx, -, -⟩ := Board.get_eq_some hg
        simp only [Option.some_bind]
        split
        · rfl
        · apply ih m1 m2 (x + xStep) (y + yStep) _ (by omega) (by omega)
          intro _
          have := hd hx
          unfold inRange at hx
          push_cast at this
          rcases hxs with rfl | rfl <;> simp at this ⊢ <;> omega
    · rfl

/-- Nine iterations are enough for the diagonal scan: more fuel never changes
its result, so `none` from `bishopLoop .. 9` is always the index panic. -/
theorem bishopLoop_fuel (board : Board) {xStep yStep toX toY : Int}
    (hxs : xStep = 1 ∨ xStep = -1) (fuel : Nat) (hf : 9 ≤ fuel) (x y : Int) :
    bishopLoop board xStep yStep toX toY fuel x y
      = bishopLoop board xStep yStep toX toY 9 x y := by
  apply bishopLoop_fuel_aux board hxs 8 fuel 9 x y _ (by omega) (by omega)
  intro hx
  unfold inRange at hx
  rcases hxs with rfl | rfl <;> simp <;> omega

/-- C13: Initialize applied to the zero value of GameState yields the
canonical starting state: Rook, Knight, Bishop, Queen, King, Bishop, Knight,
Rook on row 0 in White and on row 7 in Black, eight White pawns on row 1 and
eight Black pawns on row 6, rows 2 to 5 empty, all four castling flags true
and the en-passant target (-1, -1). -/
theorem Initialize_zero_is_starting_state : Initialize zeroGameState = startingState := by
  unfold Initialize startingState
  simp only [GameState.mk.injEq, and_true]
  funext i j
  fin_cases i <;> fin_cases j <;> rfl

/-- C14, as stated, fails: after the move e2 to e4, Initialize leaves the
pawn on e4, so the result is not the canonical starting state. -/
theorem Initialize_keeps_middle_rows :
    (Initialize afterE4State).Board 3 4 = some ⟨"P", "W"⟩ ∧
    startingState.Board 3 4 = none ∧
    Initialize afterE4State ≠ startingState := by
  have h1 : (Initialize afterE4State).Board 3 4 = some ⟨"P", "W"⟩ := by decide
  have h2 : startingState.Board 3 4 = none := by decide
  refine ⟨h1, h2, ?_⟩
  intro h
  rw [h, h2] at h1
  simp at h1

/-- C14, amended: for every state, Initialize puts the starting position on
rows 0, 1, 6 and 7, sets the four castling flags and clears the en-passant
target, and leaves rows 2 to 5 as they were; hence a second Initialize changes
nothing, and the result is the canonical starting state whenever rows 2 to 5
of the given state are empty. -/
theorem Initialize_resets_outer_rows (gs : GameState) :
    Initialize gs =
      { startingState with
        Board := fun i j =>
          if i = 0 ∨ i = 1 ∨ i = 6 ∨ i = 7 then initCell i j else gs.Board i j } ∧
    Initialize (Initialize gs) = Initialize gs ∧
    ((∀ i j, i = 0 ∨ i = 1 ∨ i = 6 ∨ i = 7 ∨ gs.Board i j = none) →
      Initialize gs = startingState) := by
  have h1 : Initialize gs =
      { startingState with
        Board := fun i j =>
          if i = 0 ∨ i = 1 ∨ i = 6 ∨ i = 7 then initCell i j else gs.Board i j } := by
    have hb := Initialize_board gs
    unfold Initialize at hb ⊢
    unfold startingState
    simp only [GameState.mk.injEq, and_true]
    exact hb
  refine ⟨h1, ?_, ?_⟩
  · have hb := Initialize_board (Initialize gs)
    rw [Initialize_board gs] at hb
    have h2 : Initialize (Initialize gs) =
        { Initialize gs with Board := (Initialize (Initialize gs)).Board } := by
      unfold Initialize
      rfl
    rw [h2, hb, h1]
    simp only [GameState.mk.injEq, and_true]
    funext i j
    split_ifs <;> rfl
  · intro h
    rw [h1]
    unfold startingState
    simp only [GameState.mk.injEq, and_true]
    funext i j
    split_ifs with hi
    · rfl
    · rcases h i j with h | h | h | h | h
      · exact absurd (Or.inl h) hi
      · exact absurd (Or.inr (Or.inl h)) hi
      · exact absurd (Or.inr (Or.inr (Or.inl h))) hi
      · exact absurd (Or.inr (Or.inr (Or.inr h))) hi
      · rw [h]
        fin_cases i <;> first | rfl | simp at hi

theorem Initialize_resets_outer_rows_witness :
    Initialize (Initialize afterE4State) = Initialize afterE4State ∧
    Initialize zeroGameState = startingState :=
  ⟨(Initialize_resets_outer_rows afterE4State).2.1,
    (Initialize_resets_outer_rows zeroGameState).2.2 (fun _ _ => by simp [zeroGameState])⟩

theorem splitComma_ne_nil (l : List Nat) : splitComma l ≠ [] := by
  cases l with
  | nil => simp [splitComma]
  | cons b rest =>
    unfold splitComma
    split
    · simp
    · split <;> simp

/-- Joining the parts with commas gives the string back. -/
theorem splitComma_join (l : List Nat) : List.intercalate [44] (splitComma l) = l := by
  induction l with
  | nil => simp [splitComma, List.intercalate]
  | cons b rest ih =>
    unfold splitComma
    split
    · rename_i hb
      subst hb
      cases hs : splitComma rest with
      | nil => exact absurd hs (splitComma_ne_nil rest)
      | cons p ps =>
        rw [hs] at ih
        rw [← ih]
        simp [List.intercalate, List.intersperse]
    · cases hs : splitComma rest with
      | nil => exact absurd hs (splitComma_ne_nil rest)
      | cons p ps =>
        rw [hs] at ih
        rw [← ih]
        cases ps <;> simp [List.intercalate, List.intersperse]

theorem ParseMove_format {f1 r1 f2 r2 : Nat}
    (h1 : 97 ≤ f1 ∧ f1 ≤ 104) (h2 : 49 ≤ r1 ∧ r1 ≤ 56)
    (h3 : 97 ≤ f2 ∧ f2 ≤ 104) (h4 : 49 ≤ r2 ∧ r2 ≤ 56) :
    ParseMove [f1, r1, 44, f2, r2]
      = ((r1 : Int) - 49, (f1 : Int) - 97, (r2 : Int) - 49, (f2 : Int) - 97, true) := by
  have e1 : f1 ≠ 44 := by omega
  have e2 : r1 ≠ 44 := by omega
  have e3 : f2 ≠ 44 := by omega
  have e4 : r2 ≠ 44 := by omega
  have hs : splitComma [f1, r1, 44, f2, r2] = [[f1, r1], [f2, r2]] := by
    simp [splitComma, e1, e2, e3, e4]
  have b1 : byteSub r1 49 = r1 - 49 := by unfold byteSub; omega
  have b2 : byteSub f1 97 = f1 - 97 := by unfold byteSub; omega
  have b3 : byteSub r2 49 = r2 - 49 := by unfold byteSub; omega
  have b4 : byteSub f2 97 = f2 - 97 := by unfold byteSub; omega
  unfold ParseMove
  rw [hs]
  simp only [b1, b2, b3, b4]
  rw [if_neg (by omega)]
  simp only [Prod.mk.injEq, and_true]
  omega

theorem ParseMove_ok_format {move : List Nat} (hb : ∀ b ∈ move, b < 256)
    (h : (ParseMove move).2.2.2.2 = true) :
    ∃ f1 r1 f2 r2 : Nat, (97 ≤ f1 ∧ f1 ≤ 104) ∧ (49 ≤ r1 ∧ r1 ≤ 56) ∧
      (97 ≤ f2 ∧ f2 ≤ 104) ∧ (49 ≤ r2 ∧ r2 ≤ 56) ∧ move = [f1, r1, 44, f2, r2] := by
  unfold ParseMove at h
  split at h
  · rename_i f1 r1 f2 r2 hs
    have hj := splitComma_join move
    rw [hs] at hj
    simp [List.intercalate, List.intersperse] at hj
    subst hj
    simp only at h
    by_cases hr : ((byteSub r1 49 : Nat) : Int) < 0 ∨ ((byteSub r1 49 : Nat) : Int) > 7 ∨
        ((byteSub f1 97 : Nat) : Int) < 0 ∨ ((byteSub f1 97 : Nat) : Int) > 7 ∨
        ((byteSub r2 49 : Nat) : Int) < 0 ∨ ((byteSub r2 49 : Nat) : Int) > 7 ∨
        ((byteSub f2 97 : Nat) : Int) < 0 ∨ ((byteSub f2 97 : Nat) : Int) > 7
    · rw [if_pos hr] at h
      simp at h
    · have hf1 := hb f1 (by simp)
      have hr1 := hb r1 (by simp)
      have hf2 := hb f2 (by simp)
      have hr2 := hb r2 (by simp)
      unfold byteSub at hr
      refine ⟨f1, r1, f2, r2, ?_, ?_, ?_, ?_, rfl⟩ <;> omega
  · simp at h

theorem ParseMove_fail {move : List Nat} (h : (ParseMove move).2.2.2.2 = false) :
    ParseMove move = (0, 0, 0, 0, false) := by
  unfold ParseMove at h ⊢
  split
  · rename_i f1 r1 f2 r2 hs
    simp only [hs] at h
    simp only
    by_cases hr : ((byteSub r1 49 : Nat) : Int) < 0 ∨ ((byteSub r1 49 : Nat) : Int) > 7 ∨
        ((byteSub f1 97 : Nat) : Int) < 0 ∨ ((byteSub f1 97 : Nat) : Int) > 7 ∨
        ((byteSub r2 49 : Nat) : Int) < 0 ∨ ((byteSub r2 49 : Nat) : Int) > 7 ∨
        ((byteSub f2 97 : Nat) : Int) < 0 ∨ ((byteSub f2 97 : Nat) : Int) > 7
    · rw [if_pos hr]
    · rw [if_neg hr] at h
      simp at h
  · rfl

/-- C12: ParseMove returns ok = true exactly on the five-byte strings
f1 r1 ',' f2 r2 with f1, f2 in 'a'..'h' and r1, r2 in '1'..'8', and then
returns (r1 - '1', f1 - 'a', r2 - '1', f2 - 'a'); so rendering four
coordinates of [0,7] in this format and parsing them gives them back, and
"e2,e4" gives (1,4,3,4,true); on every other string, "e2e4", "i2,e4" and ""
included, it returns (0,0,0,0,false). -/
theorem ParseMove_spec :
    (∀ f1 r1 f2 r2 : Nat, (97 ≤ f1 ∧ f1 ≤ 104) → (49 ≤ r1 ∧ r1 ≤ 56) →
      (97 ≤ f2 ∧ f2 ≤ 104) → (49 ≤ r2 ∧ r2 ≤ 56) →
      ParseMove [f1, r1, 44, f2, r2]
        = ((r1 : Int) - 49, (f1 : Int) - 97, (r2 : Int) - 49, (f2 : Int) - 97, true)) ∧
    (∀ move : List Nat, (∀ b ∈ move, b < 256) → (ParseMove move).2.2.2.2 = true →
      ∃ f1 r1 f2 r2 : Nat, (97 ≤ f1 ∧ f1 ≤ 104) ∧ (49 ≤ r1 ∧ r1 ≤ 56) ∧
        (97 ≤ f2 ∧ f2 ≤ 104) ∧ (49 ≤ r2 ∧ r2 ≤ 56) ∧ move = [f1, r1, 44, f2, r2]) ∧
    (∀ move : List Nat, (ParseMove move).2.2.2.2 = false →
      ParseMove move = (0, 0, 0, 0, false)) ∧
    (∀ fromX fromY toX toY : Nat, fromX < 8 → fromY < 8 → toX < 8 → toY < 8 →
      ParseMove (renderMove fromX fromY toX toY)
        = ((fromX : Int), (fromY : Int), (toX : Int), (toY : Int), true)) ∧
    ParseMove (bytesOf "e2,e4") = (1, 4, 3, 4, true) ∧
    ParseMove (bytesOf "e2e4") = (0, 0, 0, 0, false) ∧
    ParseMove (bytesOf "i2,e4") = (0, 0, 0, 0, false) ∧
    ParseMove (bytesOf "") = (0, 0, 0, 0, false) := by
  refine ⟨fun _ _ _ _ h1 h2 h3 h4 => ParseMove_format h1 h2 h3 h4,
    fun _ hb h => ParseMove_ok_format hb h, fun _ h => ParseMove_fail h, ?_,
    by decide, by decide, by decide, by decide⟩
  intro fromX fromY toX toY h1 h2 h3 h4
  unfold renderMove
  rw [ParseMove_format (by omega) (by omega) (by omega) (by omega)]
  simp only [Prod.mk.injEq, and_true]
  push_cast
  omega

theorem ParseMove_spec_witness :
    ParseMove [101, 50, 44, 101, 52] = ((50 : Int) - 49, (101 : Int) - 97, (52 : Int) - 49,
      (101 : Int) - 97, true) ∧
    ParseMove (renderMove 6 0 7 7) = (6, 0, 7, 7, true) :=
  ⟨ParseMove_spec.1 101 50 101 52 (by decide) (by decide) (by decide) (by decide),
    ParseMove_spec.2.2.2.1 6 0 7 7 (by decide) (by decide) (by decide) (by decide)⟩

/-- The straight scan over `n` readable cells from `i` on answers true exactly
when all of them are empty. -/
theorem scanClear_spec (cell : Int → Option (Option Piece)) :
    ∀ (n : Nat) (i : Int), (∀ k : Int, i ≤ k → k < i + n → (cell k).isSome) →
      ∃ r, scanClear cell n i = some r ∧
        (r = true ↔ ∀ k : Int, i ≤ k → k < i + n → cell k = some none) := by
  intro n
  induction n with
  | zero =>
    intro i _
    refine ⟨true, by simp [scanClear], ?_⟩
    simp only [true_iff]
    intro k h1 h2
    simp at h2
    omega
  | succ n ih =>
    intro i h
    have h0 := h i (le_refl _) (by push_cast; omega)
    obtain ⟨r, hr, hiff⟩ := ih (i + 1) (fun k hk1 hk2 => h k (by omega) (by push_cast; omega))
    unfold scanClear
    cases hc : cell i with
    | none => simp [hc] at h0
    | some c =>
      cases c with
      | some p =>
        refine ⟨false, by simp, ?_⟩
        simp only [Bool.false_eq_true, false_iff]
        intro hall
        have := hall i (le_refl _) (by push_cast; omega)
        rw [hc] at this
        simp at this
      | none =>
        refine ⟨r, by simpa using hr, ?_⟩
        rw [hiff]
        constructor
        · intro hall k hk1 hk2
          by_cases hki : k = i
          · rw [hki, hc]
          · exact hall k (by omega) (by push_cast at hk2; omega)
        · intro hall k hk1 hk2
          exact hall k (by omega) (by push_cast; omega)

/-- On squares of the board validRookMove completes and answers true exactly
when the squares share a row or a column and every square strictly between
them on it is empty. -/
theorem validRookMove_spec (board : Board) {fromX fromY toX toY : Int}
    (hfx : inRange fromX) (hfy : inRange fromY) (htx : inRange toX) (hty : inRange toY) :
    ∃ r, validRookMove board fromX fromY toX toY = some r ∧
      (r = true ↔ (fromX = toX ∨ fromY = toY) ∧
        ∀ x y, betweenStraight fromX fromY toX toY x y → board (idx x) (idx y) = none) := by
  unfold validRookMove
  have hfx2 := hfx
  have hfy2 := hfy
  have htx2 := htx
  have hty2 := hty
  unfold inRange at hfx2 hfy2 htx2 hty2
  split
  · rename_i hne
    refine ⟨false, rfl, ?_⟩
    simp only [Bool.false_eq_true, false_iff]
    rintro ⟨h | h, -⟩
    · exact hne.1 h
    · exact hne.2 h
  split
  · rename_i hx
    obtain ⟨r, hr, hiff⟩ := scanClear_spec (fun y => Board.get board fromX y)
      (max fromY toY - (min fromY toY + 1)).toNat (min fromY toY + 1) (by
        intro k hk1 hk2
        have hk : inRange k := by
          unfold inRange
          simp only [GoChess.min, GoChess.max] at hk1 hk2
          split_ifs at hk1 hk2 <;> omega
        simp [Board.get_inRange _ hfx hk])
    refine ⟨r, hr, ?_⟩
    rw [hiff]
    constructor
    · intro hall
      refine ⟨Or.inl hx, ?_⟩
      intro x y hb
      unfold betweenStraight at hb
      have hy : (fromY < y ∧ y < toY) ∨ (toY < y ∧ y < fromY) := by
        rcases hb with ⟨-, -, h⟩ | ⟨h1, h2, h3⟩
        · exact h
        · omega
      have hxx : x = fromX := by
        rcases hb with ⟨-, h, -⟩ | ⟨h1, h2, h3⟩
        · exact h
        · omega
      have := hall y (by simp only [GoChess.min, GoChess.max]; split_ifs <;> omega)
        (by simp only [GoChess.min, GoChess.max]; split_ifs <;> omega)
      rw [Board.get_inRange _ hfx (by unfold inRange; omega)] at this
      rw [hxx]
      simpa using this
    · rintro ⟨-, hall⟩ k hk1 hk2
      have hk : (fromY < k ∧ k < toY) ∨ (toY < k ∧ k < fromY) := by
        simp only [GoChess.min, GoChess.max] at hk1 hk2
        split_ifs at hk1 hk2 <;> omega
      rw [Board.get_inRange _ hfx (by unfold inRange; omega)]
      rw [hall fromX k (Or.inl ⟨hx, rfl, hk⟩)]
  · rename_i hne hx
    have hy : fromY = toY := by
      by_contra h
      exact hne ⟨hx, h⟩
    obtain ⟨r, hr, hiff⟩ := scanClear_spec (fun x => Board.get board x fromY)
      (max fromX toX - (min fromX toX + 1)).toNat (min fromX toX + 1) (by
        intro k hk1 hk2
        have hk : inRange k := by
          unfold inRange
          simp only [GoChess.min, GoChess.max] at hk1 hk2
          split_ifs at hk1 hk2 <;> omega
        simp [Board.get_inRange _ hk hfy])
    refine ⟨r, hr, ?_⟩
    rw [hiff]
    constructor
    · intro hall
      refine ⟨Or.inr hy, ?_⟩
      intro x y hb
      unfold betweenStraight at hb
      rcases hb with ⟨h1, -, -⟩ | ⟨-, h2, h3⟩
      · exact absurd h1 hx
      · have := hall x (by simp only [GoChess.min, GoChess.max]; split_ifs <;> omega)
          (by simp only [GoChess.min, GoChess.max]; split_ifs <;> omega)
        rw [Board.get_inRange _ (by unfold inRange; omega) hfy] at this
        rw [h2]
        simpa using this
    · rintro ⟨-, hall⟩ k hk1 hk2
      have hk : (fromX < k ∧ k < toX) ∨ (toX < k ∧ k < fromX) := by
        simp only [GoChess.min, GoChess.max] at hk1 hk2
        split_ifs at hk1 hk2 <;> omega
      rw [Board.get_inRange _ (by unfold inRange; omega) hfy]
      rw [hall k fromY (Or.inr ⟨hy, rfl, hk⟩)]

/-- The diagonal scan started `n` steps before the target completes and
answers true exactly when the `n` squares from its start on are empty. -/
theorem bishopLoop_spec (board : Board) {xStep yStep toX toY : Int}
    (hxs : xStep = 1 ∨ xStep = -1) (hys : yStep = 1 ∨ yStep = -1)
    (htx : inRange toX) (hty : inRange toY) :
    ∀ (n fuel : Nat) (x y : Int), n < fuel → inRange x → inRange y →
      x + n * xStep = toX → y + n * yStep = toY →
      ∃ r, bishopLoop board xStep yStep toX toY fuel x y = some r ∧
        (r = true ↔ ∀ k : Nat, k < n →
          board (idx (x + k * xStep)) (idx (y + k * yStep)) = none) := by
  intro n
  induction n with
  | zero =>
    intro fuel x y hf _ _ hx _
    obtain ⟨m, rfl⟩ : ∃ m, fuel = m + 1 := ⟨fuel - 1, by omega⟩
    unfold bishopLoop
    simp at hx
    refine ⟨true, by simp [hx], ?_⟩
    simp
  | succ n ih =>
    intro fuel x y hf hxr hyr hx hy
    obtain ⟨m, rfl⟩ : ∃ m, fuel = m + 1 := ⟨fuel - 1, by omega⟩
    have hxr2 := hxr
    have hyr2 := hyr
    have htx2 := htx
    have hty2 := hty
    unfold inRange at hxr2 hyr2 htx2 hty2
    push_cast at hx hy
    have hcond : x ≠ toX ∧ y ≠ toY := by
      constructor
      · rcases hxs with rfl | rfl <;> omega
      · rcases hys with rfl | rfl <;> omega
    obtain ⟨r, hr, hiff⟩ := ih m (x + xStep) (y + yStep) (by omega)
      (by unfold inRange; rcases hxs with rfl | rfl <;> omega)
      (by unfold inRange; rcases hys with rfl | rfl <;> omega)
      (by rw [← hx]; ring) (by rw [← hy]; ring)
    unfold bishopLoop
    rw [if_pos hcond, Board.get_inRange _ hxr hyr]
    simp only [Option.some_bind]
    cases hc : board (idx x) (idx y) with
    | some p =>
      refine ⟨false, by simp, ?_⟩
      simp only [Bool.false_eq_true, false_iff]
      intro hall
      have := hall 0 (by omega)
      simp [hc] at this
    | none =>
      refine ⟨r, by simpa using hr, ?_⟩
      rw [hiff]
      constructor
      · intro hall k hk
        cases k with
        | zero => simpa using hc
        | succ j =>
          have := hall j (by omega)
          have e1 : x + ((j + 1 : Nat) : Int) * xStep = x + xStep + (j : Int) * xStep := by
            push_cast; ring
          have e2 : y + ((j + 1 : Nat) : Int) * yStep = y + yStep + (j : Int) * yStep := by
            push_cast; ring
          rw [e1, e2]
          exact this
      · intro hall k hk
        have := hall (k + 1) (by omega)
        have e1 : x + ((k + 1 : Nat) : Int) * xStep = x + xStep + (k : Int) * xStep := by
          push_cast; ring
        have e2 : y + ((k + 1 : Nat) : Int) * yStep = y + yStep + (k : Int) * yStep := by
          push_cast; ring
        rw [e1, e2] at this
        exact this

/-- One direction of the diagonal scan, with the steps spelled out. -/
theorem validBishopMove_spec_dir (board : Board) {fromX fromY toX toY xs ys : Int}
    (hfx : inRange fromX) (hfy : inRange fromY) (htx : inRange toX) (hty : inRange toY)
    (hxs : xs = 1 ∨ xs = -1) (hys : ys = 1 ∨ ys = -1)
    (n : Nat) (hx : fromX + (n + 1) * xs = toX) (hy : fromY + (n + 1) * ys = toY) :
    ∃ r, bishopLoop board xs ys toX toY 9 (fromX + xs) (fromY + ys) = some r ∧
      (r = true ↔
        ∀ x y, betweenDiagonal fromX fromY toX toY x y → board (idx x) (idx y) = none) := by
  have hfx2 := hfx
  have hfy2 := hfy
  have htx2 := htx
  have hty2 := hty
  unfold inRange at hfx2 hfy2 htx2 hty2
  have hn : n < 9 := by rcases hxs with rfl | rfl <;> omega
  obtain ⟨r, hr, hiff⟩ := bishopLoop_spec board hxs hys htx hty n 9 (fromX + xs) (fromY + ys) hn
    (by unfold inRange; rcases hxs with rfl | rfl <;> omega)
    (by unfold inRange; rcases hys with rfl | rfl <;> omega)
    (by rw [← hx]; ring) (by rw [← hy]; ring)
  refine ⟨r, hr, ?_⟩
  rw [hiff]
  constructor
  · intro hall x y hb
    unfold betweenDiagonal at hb
    obtain ⟨hbx, hby, hd⟩ := hb
    have hk : ∃ k : Nat, k < n ∧ x = fromX + xs + k * xs ∧ y = fromY + ys + k * ys := by
      rcases hxs with rfl | rfl <;> rcases hys with rfl | rfl
      · exact ⟨(x - fromX - 1).toNat, by omega, by omega, by omega⟩
      · exact ⟨(x - fromX - 1).toNat, by omega, by omega, by omega⟩
      · exact ⟨(fromX - x - 1).toNat, by omega, by omega, by omega⟩
      · exact ⟨(fromX - x - 1).toNat, by omega, by omega, by omega⟩
    obtain ⟨k, hkn, rfl, rfl⟩ := hk
    exact hall k hkn
  · intro hall k hk
    apply hall
    unfold betweenDiagonal
    rcases hxs with rfl | rfl <;> rcases hys with rfl | rfl <;>
      refine ⟨?_, ?_, ?_⟩ <;> omega

theorem abs_eq_iff_onDiagonal (fromX fromY toX toY : Int) :
    abs (fromX - toX) = abs (fromY - toY) ↔ onDiagonal fromX fromY toX toY := by
  unfold abs onDiagonal
  split_ifs <;> omega

/-- On distinct squares of the board validBishopMove completes and answers
true exactly when the squares are on a common diagonal and every square
strictly between them on it is empty. -/
theorem validBishopMove_spec (board : Board) {fromX fromY toX toY : Int}
    (hfx : inRange fromX) (hfy : inRange fromY) (htx : inRange toX) (hty : inRange toY)
    (hne : ¬(fromX = toX ∧ fromY = toY)) :
    ∃ r, validBishopMove board fromX fromY toX toY = some r ∧
      (r = true ↔ onDiagonal fromX fromY toX toY ∧
        ∀ x y, betweenDiagonal fromX fromY toX toY x y → board (idx x) (idx y) = none) := by
  unfold validBishopMove
  split
  · rename_i habs
    rw [ne_eq, abs_eq_iff_onDiagonal] at habs
    exact ⟨false, rfl, by simp [habs]⟩
  · rename_i habs
    simp only [not_not] at habs
    rw [abs_eq_iff_onDiagonal] at habs
    have hd := habs
    unfold onDiagonal at hd
    simp only
    have hx1 : fromX ≠ toX := by
      intro h
      apply hne
      exact ⟨h, by omega⟩
    have hy1 : fromY ≠ toY := by
      intro h
      apply hx1
      omega
    have key : ∀ xs ys : Int, (xs = 1 ∨ xs = -1) → (ys = 1 ∨ ys = -1) →
        (∃ n : Nat, fromX + (n + 1) * xs = toX ∧ fromY + (n + 1) * ys = toY) →
        ∃ r, bishopLoop board xs ys toX toY 9 (fromX + xs) (fromY + ys) = some r ∧
          (r = true ↔ onDiagonal fromX fromY toX toY ∧
            ∀ x y, betweenDiagonal fromX fromY toX toY x y →
              board (idx x) (idx y) = none) := by
      rintro xs ys hxs hys ⟨n, h1, h2⟩
      obtain ⟨r, hr, hiff⟩ := validBishopMove_spec_dir board hfx hfy htx hty hxs hys n h1 h2
      exact ⟨r, hr, by rw [hiff]; simp [habs]⟩
    by_cases hgx : fromX > toX <;> by_cases hgy : fromY > toY <;>
      simp only [hgx, hgy, if_true, if_false] <;>
      apply key _ _ (by simp) (by simp)
    · exact ⟨(fromX - toX - 1).toNat, by omega, by omega⟩
    · exact ⟨(fromX - toX - 1).toNat, by omega, by omega⟩
    · exact ⟨(toX - fromX - 1).toNat, by omega, by omega⟩
    · exact ⟨(toX - fromX - 1).toNat, by omega, by omega⟩

/-- Two Boolean answers with the same meaning are equal. -/
theorem bool_eq_of_iff {a b : Bool} {P : Prop} (ha : a = true ↔ P) (hb : b = true ↔ P) :
    a = b := by
  cases a <;> cases b <;> simp_all

/-- The answer of validRookMove depends only on the squares strictly between. -/
theorem validRookMove_congr (board board1 : Board) {fromX fromY toX toY : Int}
    (hfx : inRange fromX) (hfy : inRange fromY) (htx : inRange toX) (hty : inRange toY)
    (h : ∀ x y, betweenStraight fromX fromY toX toY x y →
      board1 (idx x) (idx y) = board (idx x) (idx y)) :
    validRookMove board1 fromX fromY toX toY = validRookMove board fromX fromY toX toY := by
  obtain ⟨r, hr, hiff⟩ := validRookMove_spec board hfx hfy htx hty
  obtain ⟨r1, hr1, hiff1⟩ := validRookMove_spec board1 hfx hfy htx hty
  rw [hr, hr1]
  congr 1
  apply bool_eq_of_iff hiff1
  rw [hiff]
  constructor
  · rintro ⟨h1, h2⟩
    exact ⟨h1, fun x y hb => by rw [h x y hb]; exact h2 x y hb⟩
  · rintro ⟨h1, h2⟩
    exact ⟨h1, fun x y hb => by rw [← h x y hb]; exact h2 x y hb⟩

/-- The answer of validBishopMove depends only on the squares strictly between. -/
theorem validBishopMove_congr (board board1 : Board) {fromX fromY toX toY : Int}
    (hfx : inRange fromX) (hfy : inRange fromY) (htx : inRange toX) (hty : inRange toY)
    (hne : ¬(fromX = toX ∧ fromY = toY))
    (h : ∀ x y, betweenDiagonal fromX fromY toX toY x y →
      board1 (idx x) (idx y) = board (idx x) (idx y)) :
    validBishopMove board1 fromX fromY toX toY = validBishopMove board fromX fromY toX toY := by
  obtain ⟨r, hr, hiff⟩ := validBishopMove_spec board hfx hfy htx hty hne
  obtain ⟨r1, hr1, hiff1⟩ := validBishopMove_spec board1 hfx hfy htx hty hne
  rw [hr, hr1]
  congr 1
  apply bool_eq_of_iff hiff1
  rw [hiff]
  constructor
  · rintro ⟨h1, h2⟩
    exact ⟨h1, fun x y hb => by rw [h x y hb]; exact h2 x y hb⟩
  · rintro ⟨h1, h2⟩
    exact ⟨h1, fun x y hb => by rw [← h x y hb]; exact h2 x y hb⟩

theorem onDiagonal_iff_abs (fromX fromY toX toY : Int) :
    onDiagonal fromX fromY toX toY ↔ |fromX - toX| = |fromY - toY| := by
  unfold onDiagonal
  rw [abs_eq_abs]
  constructor <;> (intro h; rcases h with h | h <;> omega)

theorem betweenDiagonal_not_target {fromX fromY toX toY x y : Int}
    (h : betweenDiagonal fromX fromY toX toY x y) : x ≠ toX ∧ x ≠ fromX := by
  unfold betweenDiagonal at h
  omega

theorem betweenStraight_not_ends {fromX fromY toX toY x y : Int}
    (h : betweenStraight fromX fromY toX toY x y) :
    ¬(x = toX ∧ y = toY) ∧ ¬(x = fromX ∧ y = fromY) := by
  unfold betweenStraight at h
  omega

theorem betweenStraight_inRange {fromX fromY toX toY x y : Int}
    (hfx : inRange fromX) (hfy : inRange fromY) (htx : inRange toX) (hty : inRange toY)
    (h : betweenStraight fromX fromY toX toY x y) : inRange x ∧ inRange y := by
  unfold betweenStraight at h
  unfold inRange at *
  omega

theorem betweenDiagonal_inRange {fromX fromY toX toY x y : Int}
    (hfx : inRange fromX) (hfy : inRange fromY) (htx : inRange toX) (hty : inRange toY)
    (h : betweenDiagonal fromX fromY toX toY x y) : inRange x ∧ inRange y := by
  unfold betweenDiagonal at h
  unfold inRange at *
  omega

/-- C18: for every board and distinct squares of the board, validBishopMove
completes (the scan reaches the target without leaving the board, and more
than its nine iterations are never needed) and returns true exactly when
|fromX - toX| = |fromY - toY| and every square strictly between the two on
that diagonal is empty; what stands on the destination square does not change
the result. -/
theorem validBishopMove_iff (board : Board) (fromX fromY toX toY : Int)
    (hfx : inRange fromX) (hfy : inRange fromY) (htx : inRange toX) (hty : inRange toY)
    (hne : ¬(fromX = toX ∧ fromY = toY)) :
    (∃ r, validBishopMove board fromX fromY toX toY = some r ∧
      (r = true ↔ |fromX - toX| = |fromY - toY| ∧
        ∀ x y, betweenDiagonal fromX fromY toX toY x y → board (idx x) (idx y) = none)) ∧
    (∀ v, validBishopMove (Board.put board (idx toX) (idx toY) v) fromX fromY toX toY
      = validBishopMove board fromX fromY toX toY) ∧
    (∀ (fuel : Nat) (xStep yStep x y : Int), 9 ≤ fuel → (xStep = 1 ∨ xStep = -1) →
      bishopLoop board xStep yStep toX toY fuel x y
        = bishopLoop board xStep yStep toX toY 9 x y) := by
  refine ⟨?_, ?_, ?_⟩
  · obtain ⟨r, hr, hiff⟩ := validBishopMove_spec board hfx hfy htx hty hne
    exact ⟨r, hr, by rw [hiff, onDiagonal_iff_abs]⟩
  · intro v
    apply validBishopMove_congr board _ hfx hfy htx hty hne
    intro x y hb
    have hr := betweenDiagonal_inRange hfx hfy htx hty hb
    have hx := (betweenDiagonal_not_target hb).1
    unfold Board.put
    rw [if_neg]
    rintro ⟨h1, -⟩
    exact hx ((idx_eq_iff hr.1 htx).1 h1)
  · intro fuel xStep yStep x y hf hxs
    exact bishopLoop_fuel board hxs fuel hf x y

theorem validBishopMove_iff_witness :
    ∃ r, validBishopMove castleState.Board 0 2 2 4 = some r ∧
      (r = true ↔ |(0 : Int) - 2| = |(2 : Int) - 4| ∧
        ∀ x y, betweenDiagonal 0 2 2 4 x y → castleState.Board (idx x) (idx y) = none) :=
  (validBishopMove_iff castleState.Board 0 2 2 4 (by decide) (by decide) (by decide)
    (by decide) (by decide)).1

/-- On distinct squares of the board validQueenMove completes and answers true
exactly when the squares are aligned on a row, a column or a diagonal with
every square strictly between them empty. -/
theorem validQueenMove_spec (board : Board) {fromX fromY toX toY : Int}
    (hfx : inRange fromX) (hfy : inRange fromY) (htx : inRange toX) (hty : inRange toY)
    (hne : ¬(fromX = toX ∧ fromY = toY)) :
    ∃ r, validQueenMove board fromX fromY toX toY = some r ∧
      (r = true ↔
        ((fromX = toX ∨ fromY = toY) ∧
          ∀ x y, betweenStraight fromX fromY toX toY x y → board (idx x) (idx y) = none) ∨
        (onDiagonal fromX fromY toX toY ∧
          ∀ x y, betweenDiagonal fromX fromY toX toY x y →
            board (idx x) (idx y) = none)) := by
  obtain ⟨r1, hr1, hiff1⟩ := validRookMove_spec board hfx hfy htx hty
  obtain ⟨r2, hr2, hiff2⟩ := validBishopMove_spec board hfx hfy htx hty hne
  unfold validQueenMove orM
  rw [hr1, hr2]
  cases r1 with
  | true =>
    refine ⟨true, by simp, ?_⟩
    simp only [true_iff]
    exact Or.inl (hiff1.1 rfl)
  | false =>
    refine ⟨r2, by simp, ?_⟩
    rw [hiff2]
    constructor
    · exact fun h => Or.inr h
    · rintro (h | h)
      · have := hiff1.2 h
        simp at this
      · exact h

/-- C19: for every board and squares of the board, validRookMove completes and
returns true exactly when the two squares share a row or a column and every
square strictly between them on that line is empty; what stands on the
destination square does not change the result.  For distinct squares
validQueenMove, the short-circuit or of validRookMove and validBishopMove,
returns true exactly when the squares are aligned on a row, a column or a
diagonal with all squares strictly between them empty. -/
theorem validRookMove_validQueenMove_iff (board : Board) (fromX fromY toX toY : Int)
    (hfx : inRange fromX) (hfy : inRange fromY) (htx : inRange toX) (hty : inRange toY) :
    (∃ r, validRookMove board fromX fromY toX toY = some r ∧
      (r = true ↔ (fromX = toX ∨ fromY = toY) ∧
        ∀ x y, betweenStraight fromX fromY toX toY x y → board (idx x) (idx y) = none)) ∧
    (∀ v, validRookMove (Board.put board (idx toX) (idx toY) v) fromX fromY toX toY
      = validRookMove board fromX fromY toX toY) ∧
    (¬(fromX = toX ∧ fromY = toY) →
      ∃ r, validQueenMove board fromX fromY toX toY = some r ∧
        (r = true ↔
          ((fromX = toX ∨ fromY = toY) ∧
            ∀ x y, betweenStraight fromX fromY toX toY x y → board (idx x) (idx y) = none) ∨
          (|fromX - toX| = |fromY - toY| ∧
            ∀ x y, betweenDiagonal fromX fromY toX toY x y →
              board (idx x) (idx y) = none))) := by
  refine ⟨validRookMove_spec board hfx hfy htx hty, ?_, ?_⟩
  · intro v
    apply validRookMove_congr board _ hfx hfy htx hty
    intro x y hb
    have hr := betweenStraight_inRange hfx hfy htx hty hb
    have hx := (betweenStraight_not_ends hb).1
    unfold Board.put
    rw [if_neg]
    rintro ⟨h1, h2⟩
    exact hx ⟨(idx_eq_iff hr.1 htx).1 h1, (idx_eq_iff hr.2 hty).1 h2⟩
  · intro hne
    obtain ⟨r, hr, hiff⟩ := validQueenMove_spec board hfx hfy htx hty hne
    exact ⟨r, hr, by rw [hiff, onDiagonal_iff_abs]⟩

theorem validRookMove_validQueenMove_iff_witness :
    ∃ r, validRookMove castleState.Board 0 7 0 4 = some r ∧
      (r = true ↔ ((0 : Int) = 0 ∨ (7 : Int) = 4) ∧
        ∀ x y, betweenStraight 0 7 0 4 x y → castleState.Board (idx x) (idx y) = none) :=
  (validRookMove_validQueenMove_iff castleState.Board 0 7 0 4 (by decide) (by decide)
    (by decide) (by decide)).1

/-- MovePiece accepts a move with coordinates on the board once the source
holds a piece, the target holds no piece of its color and the rule accepts. -/
theorem MovePiece_accept {gs : GameState} {p : Piece} {fromX fromY toX toY : Int}
    (hfx : inRange fromX) (hfy : inRange fromY) (htx : inRange toX) (hty : inRange toY)
    (hp : gs.Board (idx fromX) (idx fromY) = some p)
    (hcol : ∀ q, gs.Board (idx toX) (idx toY) = some q → q.Color ≠ p.Color)
    (hrule : MovePiece.rule gs p fromX fromY toX toY = some true) :
    ∃ gs1, MovePiece gs fromX fromY toX toY = some (true, gs1) := by
  have hcm : ∃ gs1, MovePiece.commit gs p fromX fromY toX toY = some gs1 := by
    simp [MovePiece.commit, Board.set_inRange _ htx hty, Board.set_inRange _ hfx hfy]
  obtain ⟨gs1, hg⟩ := hcm
  refine ⟨gs1, ?_⟩
  unfold MovePiece
  rw [Board.get_inRange _ hfx hfy, hp, Board.get_inRange _ htx hty]
  simp only [Option.some_bind, hrule]
  cases ht : gs.Board (idx toX) (idx toY) with
  | none => simp [hg]
  | some t =>
    have := hcol t ht
    simp [hg, this]

theorem betweenStraight_symm {fromX fromY toX toY x y : Int}
    (h : betweenStraight fromX fromY toX toY x y) : betweenStraight toX toY fromX fromY x y := by
  unfold betweenStraight at *
  omega

theorem betweenDiagonal_symm {fromX fromY toX toY x y : Int}
    (hd : onDiagonal fromX fromY toX toY)
    (h : betweenDiagonal fromX fromY toX toY x y) : betweenDiagonal toX toY fromX fromY x y := by
  unfold betweenDiagonal onDiagonal at *
  omega

theorem onDiagonal_symm {fromX fromY toX toY : Int}
    (hd : onDiagonal fromX fromY toX toY) : onDiagonal toX toY fromX fromY := by
  unfold onDiagonal at *
  omega

theorem abs_sub_comm (a b : Int) : abs (a - b) = abs (b - a) := by
  unfold abs
  split_ifs <;> omega

/-- The rule of a Knight, Bishop, Rook, Queen or King that is not castling
accepts the reverse move on a board that differs only on the two squares. -/
theorem rule_reverse {gs gs1 : GameState} {p : Piece} {fromX fromY toX toY : Int}
    (hfx : inRange fromX) (hfy : inRange fromY) (htx : inRange toX) (hty : inRange toY)
    (hne : ¬(fromX = toX ∧ fromY = toY))
    (hk : p.Kind ∈ ["N", "B", "R", "Q", "K"])
    (hking : p.Kind = "K" → abs (fromX - toX) ≤ 1 ∧ abs (fromY - toY) ≤ 1)
    (hother : ∀ i j, ¬(i = idx fromX ∧ j = idx fromY) → ¬(i = idx toX ∧ j = idx toY) →
      gs1.Board i j = gs.Board i j)
    (hrule : MovePiece.rule gs p fromX fromY toX toY = some true) :
    MovePiece.rule gs1 p toX toY fromX fromY = some true := by
  have hne2 : ¬(toX = fromX ∧ toY = fromY) := fun h => hne ⟨h.1.symm, h.2.symm⟩
  have heqS : ∀ x y, betweenStraight fromX fromY toX toY x y →
      gs1.Board (idx x) (idx y) = gs.Board (idx x) (idx y) := by
    intro x y hb
    have hr := betweenStraight_inRange hfx hfy htx hty hb
    have he := betweenStraight_not_ends hb
    apply hother
    · rintro ⟨h1, h2⟩
      exact he.2 ⟨(idx_eq_iff hr.1 hfx).1 h1, (idx_eq_iff hr.2 hfy).1 h2⟩
    · rintro ⟨h1, h2⟩
      exact he.1 ⟨(idx_eq_iff hr.1 htx).1 h1, (idx_eq_iff hr.2 hty).1 h2⟩
  have heqD : ∀ x y, betweenDiagonal fromX fromY toX toY x y →
      gs1.Board (idx x) (idx y) = gs.Board (idx x) (idx y) := by
    intro x y hb
    have hr := betweenDiagonal_inRange hfx hfy htx hty hb
    have he := betweenDiagonal_not_target hb
    apply hother
    · rintro ⟨h1, -⟩
      exact he.2 ((idx_eq_iff hr.1 hfx).1 h1)
    · rintro ⟨h1, -⟩
      exact he.1 ((idx_eq_iff hr.1 htx).1 h1)
  have hrook : validRookMove gs.Board fromX fromY toX toY = some true →
      validRookMove gs1.Board toX toY fromX fromY = some true := by
    intro h
    obtain ⟨r, hr, hiff⟩ := validRookMove_spec gs.Board hfx hfy htx hty
    obtain ⟨r1, hr1, hiff1⟩ := validRookMove_spec gs1.Board htx hty hfx hfy
    rw [hr] at h
    simp at h
    obtain ⟨ha, hc⟩ := hiff.1 h
    rw [hr1]
    congr 1
    rw [hiff1]
    refine ⟨by omega, fun x y hb => ?_⟩
    rw [heqS x y (betweenStraight_symm hb)]
    exact hc x y (betweenStraight_symm hb)
  have hbishop : validBishopMove gs.Board fromX fromY toX toY = some true →
      validBishopMove gs1.Board toX toY fromX fromY = some true := by
    intro h
    obtain ⟨r, hr, hiff⟩ := validBishopMove_spec gs.Board hfx hfy htx hty hne
    obtain ⟨r1, hr1, hiff1⟩ := validBishopMove_spec gs1.Board htx hty hfx hfy hne2
    rw [hr] at h
    simp at h
    obtain ⟨ha, hc⟩ := hiff.1 h
    rw [hr1]
    congr 1
    rw [hiff1]
    refine ⟨onDiagonal_symm ha, fun x y hb => ?_⟩
    have hb2 := betweenDiagonal_symm (onDiagonal_symm ha) hb
    rw [heqD x y hb2]
    exact hc x y hb2
  unfold MovePiece.rule at hrule ⊢
  simp only [List.mem_cons, List.mem_singleton, List.not_mem_nil, or_false] at hk
  rcases hk with hk | hk | hk | hk | hk
  · simp only [hk] at hrule ⊢
    simp only [show ¬("N" = "P") by decide, show ¬("N" = "R") by decide, if_false, if_true,
      Option.some.injEq] at hrule ⊢
    unfold validKnightMove at hrule ⊢
    rw [abs_sub_comm toX fromX, abs_sub_comm toY fromY]
    exact hrule
  · simp only [hk] at hrule ⊢
    simp only [show ¬("B" = "P") by decide, show ¬("B" = "R") by decide,
      show ¬("B" = "N") by decide, if_false, if_true] at hrule ⊢
    exact hbishop hrule
  · simp only [hk] at hrule ⊢
    simp only [show ¬("R" = "P") by decide, if_false, if_true] at hrule ⊢
    exact hrook hrule
  · simp only [hk] at hrule ⊢
    simp only [show ¬("Q" = "P") by decide, show ¬("Q" = "R") by decide,
      show ¬("Q" = "N") by decide, show ¬("Q" = "B") by decide, if_false, if_true] at hrule ⊢
    obtain ⟨r, hr, hiff⟩ := validQueenMove_spec gs.Board hfx hfy htx hty hne
    obtain ⟨r1, hr1, hiff1⟩ := validQueenMove_spec gs1.Board htx hty hfx hfy hne2
    rw [hr] at hrule
    simp at hrule
    rw [hr1]
    congr 1
    rw [hiff1]
    rcases hiff.1 hrule with ⟨ha, hc⟩ | ⟨ha, hc⟩
    · left
      refine ⟨by omega, fun x y hb => ?_⟩
      rw [heqS x y (betweenStraight_symm hb)]
      exact hc x y (betweenStraight_symm hb)
    · right
      refine ⟨onDiagonal_symm ha, fun x y hb => ?_⟩
      have hb2 := betweenDiagonal_symm (onDiagonal_symm ha) hb
      rw [heqD x y hb2]
      exact hc x y hb2
  · have hkk := hking hk
    simp only [hk] at hrule ⊢
    simp only [show ¬("K" = "P") by decide, show ¬("K" = "R") by decide,
      show ¬("K" = "N") by decide, show ¬("K" = "B") by decide, show ¬("K" = "Q") by decide,
      if_false, if_true] at hrule ⊢
    unfold validKingMove
    rw [abs_sub_comm toX fromX, abs_sub_comm toY fromY]
    simp [hkk]

/-- C15: for distinct squares a = (fromX, fromY) and b = (toX, toY) of the
board, with a Knight, Bishop, Rook, Queen or King on a, b empty and the move
not a castle (a King moves at most one row and one column), if MovePiece(a, b)
returns true then MovePiece(b, a) on the resulting state returns true as well
and the board after both moves is the original board. -/
theorem MovePiece_round_trip (gs gs1 : GameState) (p : Piece) (fromX fromY toX toY : Int)
    (hfx : inRange fromX) (hfy : inRange fromY) (htx : inRange toX) (hty : inRange toY)
    (hne : ¬(fromX = toX ∧ fromY = toY))
    (hp : gs.Board (idx fromX) (idx fromY) = some p)
    (hk : p.Kind ∈ ["N", "B", "R", "Q", "K"])
    (hempty : gs.Board (idx toX) (idx toY) = none)
    (hking : p.Kind = "K" → abs (fromX - toX) ≤ 1 ∧ abs (fromY - toY) ≤ 1)
    (h : MovePiece gs fromX fromY toX toY = some (true, gs1)) :
    ∃ gs2, MovePiece gs1 toX toY fromX fromY = some (true, gs2) ∧ gs2.Board = gs.Board := by
  have hnP : p.Kind ≠ "P" := by
    simp only [List.mem_cons, List.mem_singleton, List.not_mem_nil, or_false] at hk
    rcases hk with hk | hk | hk | hk | hk <;> rw [hk] <;> decide
  obtain ⟨p1, hp1, -, hrule, -⟩ := MovePiece_true_fields hfx hfy htx hty h
  have hpp : p1 = p := by
    rw [hp] at hp1
    exact (Option.some.inj hp1).symm
  subst hpp
  obtain ⟨q, hq, ha1, hb1, ho1⟩ := MovePiece_true_cells hfx hfy htx hty h
  have hqp : q = p1 := by
    rw [hp] at hq
    exact (Option.some.inj hq).symm
  subst hqp
  have hb1' : gs1.Board (idx toX) (idx toY) = some q := by
    rw [hb1]
    simp [hnP]
  have hrev := rule_reverse hfx hfy htx hty hne hk hking ho1 hrule
  obtain ⟨gs2, hm2⟩ := MovePiece_accept htx hty hfx hfy hb1'
    (fun t ht => by rw [ha1] at ht; simp at ht) hrev
  refine ⟨gs2, hm2, ?_⟩
  obtain ⟨q2, hq2, ha2, hb2, ho2⟩ := MovePiece_true_cells htx hty hfx hfy hm2
  have hq2p : q2 = q := by
    rw [hb1'] at hq2
    exact (Option.some.inj hq2).symm
  subst hq2p
  funext i j
  by_cases h1 : i = idx fromX ∧ j = idx fromY
  · obtain ⟨rfl, rfl⟩ := h1
    rw [hb2, hp]
    simp [hnP]
  · by_cases h2 : i = idx toX ∧ j = idx toY
    · obtain ⟨rfl, rfl⟩ := h2
      rw [ha2, hempty]
    · rw [ho2 i j h2 h1, ho1 i j h1 h2]

theorem MovePiece_round_trip_witness :
    ∃ gs2, MovePiece (stateAfter (MovePiece looseQueenState 6 4 4 2) looseQueenState) 4 2 6 4
        = some (true, gs2) ∧ gs2.Board = looseQueenState.Board :=
  MovePiece_round_trip looseQueenState _ ⟨"Q", "W"⟩ 6 4 4 2 (by decide) (by decide) (by decide)
    (by decide) (by decide) (by decide) (by decide) (by decide) (by decide) (by rfl)

/-- C11 (code defect): IsCheckmate does not restore the board.  On a position
without pawns and with all castling flags false (Black king e8, loose White
queen e7) IsCheckmate("B") returns true and the Black king is gone from e8;
on another such position (Black king e8 checked by a rook on e1) it returns
false and the Black king is gone from e8 as well.  The restore of lines
370-371 and 374-375 stores the old content of the target square in the target
square and then copies the target square to the source square. -/
theorem IsCheckmate_loses_moved_piece :
    looseQueenState.Board 7 4 = some ⟨"K", "B"⟩ ∧
    observe (IsCheckmate looseQueenState "B") [(7, 4), (6, 3)]
      = some (true, [none, none], [false, false, false, false], (-1, -1)) ∧
    rookCheckState.Board 7 4 = some ⟨"K", "B"⟩ ∧
    observe (IsCheckmate rookCheckState "B") [(7, 4), (6, 3)]
      = some (false, [none, none], [false, false, false, false], (-1, -1)) := by
  refine ⟨?_, ?_, ?_, ?_⟩ <;> decide

/-- C16 (code defect): IsCheckmate can leave two Kings of one color.  With the
Black king on e8 checked by a rook on e1 and the White king on d7 there is one
King of each color; IsCheckmate("B") tries e8 takes d7, finds Black out of
check, stores the captured White king back on d7 and then copies d7 to e8, and
returns false with a White king on d7 and on e8. -/
theorem IsCheckmate_duplicates_king :
    countKings kingsAdjacentState.Board "W" = 1 ∧
    countKings kingsAdjacentState.Board "B" = 1 ∧
    observe (IsCheckmate kingsAdjacentState "B") [(6, 3), (7, 4)]
      = some (false, [some ⟨"K", "W"⟩, some ⟨"K", "W"⟩],
          [false, false, false, false], (-1, -1)) ∧
    countKings (stateAfter (IsCheckmate kingsAdjacentState "B") kingsAdjacentState).Board "W"
      = 2 := by
  refine ⟨?_, ?_, ?_, ?_⟩ <;> decide

/-- C17 (code defect): the en-passant test of validPawnMove accepts one
capture direction only.  With the target on e3 a Black pawn on f4 may capture
onto it but a Black pawn on d4 may not; with the target on d6 a White pawn on
e5 may not capture onto it, while with the target on f6 it may. -/
theorem validPawnMove_enPassant_one_direction :
    afterE4EnPassant.EnPassantTarget = (2, 4) ∧
    (validPawnMove afterE4EnPassant 3 5 2 4 "B").map Prod.fst = some true ∧
    (validPawnMove afterE4EnPassant 3 3 2 4 "B").map Prod.fst = some false ∧
    (validPawnMove whiteEnPassantState 4 4 5 3 "W").map Prod.fst = some false ∧
    (validPawnMove { whiteEnPassantState with EnPassantTarget := (5, 5) } 4 4 5 5 "W").map
      Prod.fst = some true := by
  refine ⟨?_, ?_, ?_, ?_, ?_⟩ <;> decide

theorem castleWhite_isSome_home (gs : GameState) (board : Board) {fromX fromY toY : Int}
    (hfx : inRange fromX) (hfy : inRange fromY) (hty : inRange toY)
    (h2 : abs (fromY - toY) = 2)
    (hhome : gs.WhiteCanCastleQueenSide = true → fromY = 4) :
    (castleWhite gs board fromX fromY toY).isSome := by
  unfold castleWhite
  unfold abs at h2
  have hfy2 := hfy
  have hty2 := hty
  unfold inRange at hfy2 hty2
  refine bind_ite_isSome ?_ (fun h => ?_) (fun _ => ?_)
  · refine andM_isSome (by simp) (fun h => ?_)
    simp at h
    have h1 : inRange (fromY + 1) := by unfold inRange; split_ifs at h2 <;> omega
    have h3 : inRange (fromY + 2) := by unfold inRange; split_ifs at h2 <;> omega
    exact andM_isSome (isNil_isSome _ hfx h1) (fun _ => isNil_isSome _ hfx h3)
  · rw [andM_eq_some_true] at h
    simp at h
    exact castleLocal_isSome _ hfx (by unfold inRange; omega) (by unfold inRange; omega)
  refine bind_ite_isSome ?_ (fun h => ?_) (fun _ => by simp)
  · refine andM_isSome (by simp) (fun h => ?_)
    simp at h
    have h4 := hhome h.2
    subst h4
    exact andM_isSome (isNil_isSome _ hfx (by decide))
      (fun _ => andM_isSome (isNil_isSome _ hfx (by decide))
        (fun _ => isNil_isSome _ hfx (by decide)))
  · rw [andM_eq_some_true] at h
    simp at h
    exact castleLocal_isSome _ hfx (by unfold inRange; omega) (by unfold inRange; omega)

theorem castleBlack_isSome_home (gs : GameState) (board : Board) {fromX fromY toY : Int}
    (hfx : inRange fromX) (hfy : inRange fromY) (hty : inRange toY)
    (h2 : abs (fromY - toY) = 2)
    (hhome : gs.BlackCanCastleQueenSide = true → fromY = 4) :
    (castleBlack gs board fromX fromY toY).isSome := by
  unfold castleBlack
  unfold abs at h2
  have hfy2 := hfy
  have hty2 := hty
  unfold inRange at hfy2 hty2
  refine bind_ite_isSome ?_ (fun h => ?_) (fun _ => ?_)
  · refine andM_isSome (by simp) (fun h => ?_)
    simp at h
    have h1 : inRange (fromY + 1) := by unfold inRange; split_ifs at h2 <;> omega
    have h3 : inRange (fromY + 2) := by unfold inRange; split_ifs at h2 <;> omega
    exact andM_isSome (isNil_isSome _ hfx h1) (fun _ => isNil_isSome _ hfx h3)
  · rw [andM_eq_some_true] at h
    simp at h
    exact castleLocal_isSome _ hfx (by unfold inRange; omega) (by unfold inRange; omega)
  refine bind_ite_isSome ?_ (fun h => ?_) (fun _ => by simp)
  · refine andM_isSome (by simp) (fun h => ?_)
    simp at h
    have h4 := hhome h.2
    subst h4
    exact andM_isSome (isNil_isSome _ hfx (by decide))
      (fun _ => andM_isSome (isNil_isSome _ hfx (by decide))
        (fun _ => isNil_isSome _ hfx (by decide)))
  · rw [andM_eq_some_true] at h
    simp at h
    exact castleLocal_isSome _ hfx (by unfold inRange; omega) (by unfold inRange; omega)

theorem idx_eq_four {y : Int} (hy : inRange y) (h : idx y = 4) : y = 4 := by
  have : idx y = idx 4 := h
  exact (idx_eq_iff hy (by decide)).1 this

/-- On a state with the kings-at-home invariant validKingMove completes for a
King standing on the source square. -/
theorem validKingMove_isSome_home (gs : GameState) {fromX fromY toX toY : Int} {p : Piece}
    (hfx : inRange fromX) (hfy : inRange fromY) (hty : inRange toY)
    (hp : gs.Board (idx fromX) (idx fromY) = some p) (hK : p.Kind = "K")
    (hinv : KingsHome gs) :
    (validKingMove gs fromX fromY toX toY).isSome := by
  have hh := hinv _ _ p hp hK
  unfold validKingMove
  simp only
  split
  · simp
  split
  · rename_i hc
    obtain ⟨-, h2⟩ := hc
    rw [Board.get_inRange _ hfx hfy, hp]
    simp only [Option.some_bind, deref]
    split
    · rename_i hw
      exact castleWhite_isSome_home gs _ hfx hfy hty h2
        (fun hf => idx_eq_four hfy (hh.1 hw (Or.inr hf)).2)
    · rename_i hw
      exact castleBlack_isSome_home gs _ hfx hfy hty h2
        (fun hf => idx_eq_four hfy (hh.2 hw (Or.inr hf)).2)
  · simp

/-- On a state with the kings-at-home invariant MovePiece completes for all
coordinates on the board. -/
theorem MovePiece_isSome_home (gs : GameState) {fromX fromY toX toY : Int}
    (hfx : inRange fromX) (hfy : inRange fromY) (htx : inRange toX) (hty : inRange toY)
    (hinv : KingsHome gs) :
    (MovePiece gs fromX fromY toX toY).isSome := by
  unfold MovePiece
  rw [Board.get_inRange _ hfx hfy, Board.get_inRange _ htx hty]
  simp only [Option.some_bind]
  cases hp : gs.Board (idx fromX) (idx fromY) with
  | none => simp
  | some piece =>
    simp only
    split
    · simp
    · rename_i hcol
      have hne : ¬(fromX = toX ∧ fromY = toY) := by
        rintro ⟨rfl, rfl⟩
        rw [hp] at hcol
        simp at hcol
      have hrule : (MovePiece.rule gs piece fromX fromY toX toY).isSome := by
        unfold MovePiece.rule
        split_ifs with h1 h2 h3 h4 h5 h6
        · simpa using validPawnMove_isSome gs piece.Color hfx htx hty
        · exact validRookMove_isSome gs.Board hfx hfy htx hty
        · simp
        · exact validBishopMove_isSome gs.Board hfx hfy htx hty hne
        · exact validQueenMove_isSome gs.Board hfx hfy htx hty hne
        · simpa using validKingMove_isSome_home gs hfx hfy hty hp h6 hinv
        · simp
      cases hr : MovePiece.rule gs piece fromX fromY toX toY with
      | none => simp [hr] at hrule
      | some ok =>
        cases ok <;>
          simp [MovePiece.commit, Board.set_inRange _ htx hty, Board.set_inRange _ hfx hfy]

theorem Initialize_zero_kingsHome : KingsHome (Initialize zeroGameState) := by
  intro i j p hp hK
  rw [Initialize_board] at hp
  fin_cases i <;> fin_cases j <;> simp [initCell, zeroGameState] at hp <;> subst hp <;>
    first
    | (exact absurd hK (by decide))
    | (exact ⟨fun _ _ => ⟨rfl, rfl⟩, fun h => absurd rfl h⟩)
    | (exact ⟨fun h => absurd h (by decide), fun _ _ => ⟨rfl, rfl⟩⟩)

/-- MovePiece keeps the kings-at-home invariant: a King changes square only by
a move of its own, which clears both castling flags of its color. -/
theorem MovePiece_kingsHome {gs gs1 : GameState} {fromX fromY toX toY : Int} {ok : Bool}
    (hfx : inRange fromX) (hfy : inRange fromY) (htx : inRange toX) (hty : inRange toY)
    (h : MovePiece gs fromX fromY toX toY = some (ok, gs1)) (hinv : KingsHome gs) :
    KingsHome gs1 := by
  cases ok with
  | false => rw [MovePiece_false h]; exact hinv
  | true =>
    obtain ⟨piece, hp, -, -, hcommit⟩ := MovePiece_true_fields hfx hfy htx hty h
    obtain ⟨hb, h1, h2, h3, h4, -⟩ := commit_eq hfx hfy htx hty hcommit
    intro i j p hcell hK
    rw [hb] at hcell
    simp only at hcell
    split_ifs at hcell with c1 c2 c3
    · simp at hcell
      subst hcell
      simp at hK
    · simp at hcell
      subst hcell
      constructor
      · intro hw hf
        exfalso
        rw [h1, h2] at hf
        simp [hK, hw] at hf
      · intro hw hf
        exfalso
        rw [h3, h4] at hf
        simp [hK, hw] at hf
    · have hh := hinv i j p hcell hK
      constructor
      · intro hw hf
        apply hh.1 hw
        rw [h1, h2] at hf
        simp only [Bool.and_eq_true] at hf
        rcases hf with hf | hf
        · exact Or.inl hf.1
        · exact Or.inr hf.1
      · intro hw hf
        apply hh.2 hw
        rw [h3, h4] at hf
        simp only [Bool.and_eq_true] at hf
        rcases hf with hf | hf
        · exact Or.inl hf.1
        · exact Or.inr hf.1

theorem Reachable_kingsHome {gs : GameState} (h : Reachable gs) : KingsHome gs := by
  induction h with
  | init => exact Initialize_zero_kingsHome
  | move _ hfx hfy htx hty hm ih => exact MovePiece_kingsHome hfx hfy htx hty hm ih

/-- C20: on every state reachable from the initialised starting state by
calls of MovePiece with coordinates in [0,7], accepted or rejected, a further
call of MovePiece with coordinates in [0,7] completes: it never indexes the
board outside 0..7 (the result is never the panic `none`).  The invariant
behind it: while a castling flag of a color is still true, every King of that
color stands on its home square, in column 4. -/
theorem MovePiece_index_safe (gs : GameState) (fromX fromY toX toY : Int)
    (hreach : Reachable gs)
    (hfx : inRange fromX) (hfy : inRange fromY) (htx : inRange toX) (hty : inRange toY) :
    KingsHome gs ∧ ∃ ok gs1, MovePiece gs fromX fromY toX toY = some (ok, gs1) := by
  have hinv := Reachable_kingsHome hreach
  refine ⟨hinv, ?_⟩
  have hs := MovePiece_isSome_home gs hfx hfy htx hty hinv
  cases hm : MovePiece gs fromX fromY toX toY with
  | none => simp [hm] at hs
  | some r => exact ⟨r.1, r.2, rfl⟩

theorem afterE4State_reachable : Reachable afterE4State :=
  @Reachable.move _ _ 1 4 3 4 true Reachable.init (by decide) (by decide) (by decide)
    (by decide) (by rfl)

theorem MovePiece_index_safe_witness :
    KingsHome afterE4State ∧ ∃ ok gs1, MovePiece afterE4State 0 4 0 2 = some (ok, gs1) :=
  MovePiece_index_safe afterE4State 0 4 0 2 afterE4State_reachable
    (by decide) (by decide) (by decide) (by decide)

/-- MovePiece keeps `at most one King of each color`: it empties one square
and fills another with the moved piece or a Queen, and creates no King. -/
theorem MovePiece_atMostOneKing {gs gs1 : GameState} {fromX fromY toX toY : Int} {ok : Bool}
    (hfx : inRange fromX) (hfy : inRange fromY) (htx : inRange toX) (hty : inRange toY)
    (h : MovePiece gs fromX fromY toX toY = some (ok, gs1)) (hinv : AtMostOneKing gs.Board) :
    AtMostOneKing gs1.Board := by
  cases ok with
  | false => rw [MovePiece_false h]; exact hinv
  | true =>
    obtain ⟨p, hp, ha, hb, ho⟩ := MovePiece_true_cells hfx hfy htx hty h
    -- every King of gs1 comes from a King of gs: the one on the target from the source
    have src : ∀ (color : String) (i j : Fin 8), isKingOf color (gs1.Board i j) = true →
        ¬(i = idx fromX ∧ j = idx fromY) ∧
        ((i = idx toX ∧ j = idx toY ∧
            isKingOf color (gs.Board (idx fromX) (idx fromY)) = true) ∨
          (¬(i = idx toX ∧ j = idx toY) ∧ isKingOf color (gs.Board i j) = true)) := by
      intro color i j hk
      have hna : ¬(i = idx fromX ∧ j = idx fromY) := by
        rintro ⟨rfl, rfl⟩
        rw [ha] at hk
        simp [isKingOf] at hk
      refine ⟨hna, ?_⟩
      by_cases hbq : i = idx toX ∧ j = idx toY
      · left
        obtain ⟨rfl, rfl⟩ := hbq
        refine ⟨rfl, rfl, ?_⟩
        rw [hb] at hk
        rw [hp]
        by_cases hpr : p.Kind = "P" ∧ toX = if p.Color = "W" then 7 else 0
        · rw [if_pos hpr] at hk
          simp [isKingOf] at hk
        · rw [if_neg hpr] at hk
          exact hk
      · right
        refine ⟨hbq, ?_⟩
        rw [ho i j hna hbq] at hk
        exact hk
    intro color i j i1 j1 hk hk1
    obtain ⟨hna, hs⟩ := src color i j hk
    obtain ⟨hna1, hs1⟩ := src color i1 j1 hk1
    rcases hs with ⟨rfl, rfl, hka⟩ | ⟨hnb, hkk⟩ <;> rcases hs1 with ⟨rfl, rfl, hka1⟩ | ⟨hnb1, hkk1⟩
    · exact ⟨rfl, rfl⟩
    · have := hinv color _ _ _ _ hka hkk1
      exact absurd ⟨this.1.symm, this.2.symm⟩ hna1
    · have := hinv color _ _ _ _ hkk hka1
      exact absurd this hna
    · exact hinv color _ _ _ _ hkk hkk1

theorem Initialize_zero_atMostOneKing : AtMostOneKing (Initialize zeroGameState).Board := by
  rw [Initialize_board]
  intro color i j i1 j1 hk hk1
  have key : ∀ a b : Fin 8, isKingOf color
      ((fun i j => if i = 0 ∨ i = 1 ∨ i = 6 ∨ i = 7 then initCell i j
        else zeroGameState.Board i j) a b) = true →
      b = 4 ∧ ((a = 0 ∧ color = "W") ∨ (a = 7 ∧ color = "B")) := by
    intro a b
    fin_cases a <;> fin_cases b <;> simp [initCell, isKingOf, zeroGameState] <;>
      intro h <;> exact h.symm
  obtain ⟨rfl, h1⟩ := key i j hk
  obtain ⟨rfl, h2⟩ := key i1 j1 hk1
  refine ⟨?_, rfl⟩
  rcases h1 with ⟨rfl, rfl⟩ | ⟨rfl, rfl⟩ <;> rcases h2 with ⟨rfl, h⟩ | ⟨rfl, h⟩ <;>
    first | rfl | (exact absurd h (by decide))

theorem andM_some (a : Bool) (b : Option Bool) :
    andM (some a) b = if a then b else some false := by
  cases a <;> simp [andM]

theorem colorDiffers_inRange (board : Board) {x y : Int} (hx : inRange x) (hy : inRange y)
    {q : Piece} (color : String) (h : board (idx x) (idx y) = some q) :
    colorDiffers board x y color = some (q.Color != color) := by
  simp [colorDiffers, deref, Board.get_inRange _ hx hy, h]

/-- What validPawnMove does on squares of the board, for the color W. -/
theorem validPawnMove_white (gs : GameState) {fromX fromY toX toY : Int}
    (hfx : inRange fromX) (htx : inRange toX) (hty : inRange toY) :
    ∃ r b, validPawnMove gs fromX fromY toX toY "W" = some (r, b) ∧
      (r = true ↔
        (toX = fromX + 1 ∧ toY = fromY ∧ gs.Board (idx toX) (idx toY) = none) ∨
        (fromX = 1 ∧ toX = fromX + 2 ∧ toY = fromY ∧ gs.Board (idx toX) (idx toY) = none ∧
          gs.Board (idx (toX - 1)) (idx toY) = none) ∨
        (toX = fromX + 1 ∧ (toY = fromY + 1 ∨ toY = fromY - 1) ∧
          ∃ q, gs.Board (idx toX) (idx toY) = some q ∧ q.Color ≠ "W") ∨
        (toX = fromX + 1 ∧ toY = fromY + 1 ∧
          gs.EnPassantTarget.1 = toX ∧ gs.EnPassantTarget.2 = toY)) := by
  have hfx2 := hfx
  have htx2 := htx
  unfold inRange at hfx2 htx2
  unfold validPawnMove
  simp only [if_true, andM_some, isNil_inRange _ htx hty]
  by_cases h1 : toX = fromX + 1
  · subst h1
    have hs : Board.set gs.Board (fromX + 1 - 1) toY none
        = some (fun i j => if i = idx (fromX + 1 - 1) ∧ j = idx toY then none
            else gs.Board i j) :=
      Board.set_inRange _ (by unfold inRange; omega) hty _
    rw [hs]
    have hy : toY = fromY ∨ toY = fromY + 1 ∨ toY = fromY - 1 ∨
        (toY ≠ fromY ∧ toY ≠ fromY + 1 ∧ toY ≠ fromY - 1) := by omega
    cases hd : gs.Board (idx (fromX + 1)) (idx toY) with
    | none =>
      rcases hy with rfl | rfl | rfl | ⟨n1, n2, n3⟩
      · simp [hd, andM_some]
      · by_cases e1 : gs.EnPassantTarget.1 = fromX + 1 <;>
          by_cases e2 : gs.EnPassantTarget.2 = fromY + 1 <;>
          simp [hd, andM_some, e1, e2, show ¬(fromY = fromY - 1) by omega,
            show ¬(fromY - 1 = fromY + 1) by omega]
      · by_cases e1 : gs.EnPassantTarget.1 = fromX + 1 <;>
          by_cases e2 : gs.EnPassantTarget.2 = fromY - 1 <;>
          simp [hd, andM_some, e1, e2, show ¬(fromY = fromY - 1) by omega,
            show ¬(fromY - 1 = fromY + 1) by omega]
      · have n1' : ¬(fromY = toY) := fun h => n1 h.symm
        simp [hd, andM_some, n1, n1', n2, n3]
    | some q =>
      rw [colorDiffers_inRange _ htx hty "W" hd]
      rcases hy with rfl | rfl | rfl | ⟨n1, n2, n3⟩
      · simp [hd, andM_some, show ¬(toY = toY - 1) by omega]
      · by_cases e1 : gs.EnPassantTarget.1 = fromX + 1 <;>
          by_cases e2 : gs.EnPassantTarget.2 = fromY + 1 <;>
          by_cases hq : q.Color = "W" <;>
          simp [hd, andM_some, e1, e2, hq, show ¬(fromY = fromY - 1) by omega,
            show ¬(fromY - 1 = fromY + 1) by omega]
      · by_cases e1 : gs.EnPassantTarget.1 = fromX + 1 <;>
          by_cases e2 : gs.EnPassantTarget.2 = fromY - 1 <;>
          by_cases hq : q.Color = "W" <;>
          simp [hd, andM_some, e1, e2, hq, show ¬(fromY = fromY - 1) by omega,
            show ¬(fromY - 1 = fromY + 1) by omega]
      · have n1' : ¬(fromY = toY) := fun h => n1 h.symm
        simp [hd, andM_some, n1, n1', n2, n3]
  · by_cases h2 : fromX = 1 ∧ toX = fromX + 2 ∧ fromY = toY
    · obtain ⟨a1, a2, a3⟩ := h2
      have hm : inRange (toX - 1) := by unfold inRange; omega
      rw [isNil_inRange _ hm hty]
      cases hd : gs.Board (idx toX) (idx toY) <;>
        cases hmid : gs.Board (idx (toX - 1)) (idx toY) <;>
        simp [h1, a1, a2, a3, hd, hmid, andM_some]
    · have hb : (fromX == 1 && toX == fromX + 2 && fromY == toY) = false := by
        simp only [Bool.and_eq_false_iff, beq_eq_false_iff_ne, ne_eq, Bool.and_eq_true,
          beq_iff_eq]
        tauto
      rw [hb]
      simp [h1]
      intro a1 a2 a3
      exact absurd ⟨a1, a2, a3.symm⟩ h2

/-- What validPawnMove does on squares of the board, for a color other
than W. -/
theorem validPawnMove_black (gs : GameState) {fromX fromY toX toY : Int} {color : String}
    (hc : color ≠ "W")
    (hfx : inRange fromX) (htx : inRange toX) (hty : inRange toY) :
    ∃ r b, validPawnMove gs fromX fromY toX toY color = some (r, b) ∧
      (r = true ↔
        (toX = fromX - 1 ∧ toY = fromY ∧ gs.Board (idx toX) (idx toY) = none) ∨
        (fromX = 6 ∧ toX = fromX - 2 ∧ toY = fromY ∧ gs.Board (idx toX) (idx toY) = none ∧
          gs.Board (idx (toX + 1)) (idx toY) = none) ∨
        (toX = fromX - 1 ∧ (toY = fromY + 1 ∨ toY = fromY - 1) ∧
          ∃ q, gs.Board (idx toX) (idx toY) = some q ∧ q.Color ≠ color) ∨
        (toX = fromX - 1 ∧ toY = fromY - 1 ∧
          gs.EnPassantTarget.1 = toX ∧ gs.EnPassantTarget.2 = toY)) := by
  have hfx2 := hfx
  have htx2 := htx
  unfold inRange at hfx2 htx2
  unfold validPawnMove
  simp only [hc, if_false, andM_some, isNil_inRange _ htx hty]
  by_cases h1 : toX = fromX - 1
  · subst h1
    have hs : Board.set gs.Board (fromX - 1 + 1) toY none
        = some (fun i j => if i = idx (fromX - 1 + 1) ∧ j = idx toY then none
            else gs.Board i j) :=
      Board.set_inRange _ (by unfold inRange; omega) hty _
    rw [hs]
    have hy : toY = fromY ∨ toY = fromY + 1 ∨ toY = fromY - 1 ∨
        (toY ≠ fromY ∧ toY ≠ fromY + 1 ∧ toY ≠ fromY - 1) := by omega
    cases hd : gs.Board (idx (fromX - 1)) (idx toY) with
    | none =>
      rcases hy with rfl | rfl | rfl | ⟨n1, n2, n3⟩
      · simp [hd, andM_some]
      · by_cases e1 : gs.EnPassantTarget.1 = fromX - 1 <;>
          by_cases e2 : gs.EnPassantTarget.2 = fromY + 1 <;>
          simp [hd, andM_some, e1, e2, show ¬(fromY = fromY - 1) by omega,
            show ¬(fromY - 1 = fromY + 1) by omega,
            show ¬(fromY + 1 = fromY - 1) by omega]
      · by_cases e1 : gs.EnPassantTarget.1 = fromX - 1 <;>
          by_cases e2 : gs.EnPassantTarget.2 = fromY - 1 <;>
          simp [hd, andM_some, e1, e2, show ¬(fromY = fromY - 1) by omega,
            show ¬(fromY - 1 = fromY + 1) by omega,
            show ¬(fromY + 1 = fromY - 1) by omega]
      · have n1' : ¬(fromY = toY) := fun h => n1 h.symm
        simp [hd, andM_some, n1, n1', n2, n3]
    | some q =>
      rw [colorDiffers_inRange _ htx hty color hd]
      rcases hy with rfl | rfl | rfl | ⟨n1, n2, n3⟩
      · simp [hd, andM_some, show ¬(toY = toY - 1) by omega]
      · by_cases e1 : gs.EnPassantTarget.1 = fromX - 1 <;>
          by_cases e2 : gs.EnPassantTarget.2 = fromY + 1 <;>
          by_cases hq : q.Color = color <;>
          simp [hd, andM_some, e1, e2, hq, show ¬(fromY = fromY - 1) by omega,
            show ¬(fromY - 1 = fromY + 1) by omega,
            show ¬(fromY + 1 = fromY - 1) by omega]
      · by_cases e1 : gs.EnPassantTarget.1 = fromX - 1 <;>
          by_cases e2 : gs.EnPassantTarget.2 = fromY - 1 <;>
          by_cases hq : q.Color = color <;>
          simp [hd, andM_some, e1, e2, hq, show ¬(fromY = fromY - 1) by omega,
            show ¬(fromY - 1 = fromY + 1) by omega,
            show ¬(fromY + 1 = fromY - 1) by omega]
      · have n1' : ¬(fromY = toY) := fun h => n1 h.symm
        simp [hd, andM_some, n1, n1', n2, n3]
  · by_cases h2 : fromX = 6 ∧ toX = fromX - 2 ∧ fromY = toY
    · obtain ⟨a1, a2, a3⟩ := h2
      have hm : inRange (toX + 1) := by unfold inRange; omega
      rw [isNil_inRange _ hm hty]
      cases hd : gs.Board (idx toX) (idx toY) <;>
        cases hmid : gs.Board (idx (toX + 1)) (idx toY) <;>
        simp [h1, a1, a2, a3, hd, hmid, andM_some]
    · have hb : (fromX == 6 && toX == fromX - 2 && fromY == toY) = false := by
        simp only [Bool.and_eq_false_iff, beq_eq_false_iff_ne, ne_eq, Bool.and_eq_true,
          beq_iff_eq]
        tauto
      rw [hb]
      simp [h1]
      intro a1 a2 a3
      exact absurd ⟨a1, a2, a3.symm⟩ h2

/-- C5 (code defect): a pawn does remain on the last row in a state reached
from the initial position.  The loop of `main`, started on the initialised
zero value and fed the seven lines of 1. e4 d5 2. exd5 e6 3. dxe6 a6 4. exf7+,
all accepted, then calls IsCheckmate("B"): it returns false and leaves White
pawns on a8 (7,0) and on d8 (7,3).  The trial captures a8 takes a2 and d8
takes d2 are undone by lines 374-375, which store the captured pawn back on
its square and then copy that square, not the moved piece, to the source
square.  MovePiece itself promotes as claimed, see
`MovePiece_relocates_and_promotes`. -/
theorem game_leaves_pawns_on_last_row :
    observe (mainLoop edgePawnGame (Initialize zeroGameState) "W") [(7, 0), (7, 3)]
      = some (false, [some ⟨"P", "W"⟩, some ⟨"P", "W"⟩],
          [true, true, false, false], (-1, -1)) := by
  decide!

end GoChess
